import Mathlib

/-!
Verification development for the docker-to-obsi Obsidian plugin.

The TypeScript source is shallowly embedded: JavaScript strings become
`List Char` (with `String` wrappers at the interfaces), the two fenced
code-block regular expressions become an explicit deterministic matcher
(the pattern has no backtracking interplay between its parts: each
alternation point is decided by mutually exclusive next characters),
and `String.prototype.replace` is embedded including the `$$`/`$&`/
substitution processing that JavaScript applies to string replacement
arguments.  Host-side effects (vault reads/writes, network calls) are
passed in as explicit data.
-/

namespace DockerToObsi

/-- The backtick character, written via its code point. -/
def bq : Char := '\x60'

/-- JavaScript `\s` (whitespace class), restricted to the code points that can
actually occur in the strings this plugin handles (ASCII whitespace plus
NBSP and the BOM). -/
def isJsWs (c : Char) : Bool :=
  c = ' ' || c = '\t' || c = '\n' || c = '\r' ||
  c = '\x0b' || c = '\x0c' || c = '\u00a0' || c = '\ufeff'

/-- Line terminators after which the multiline `^` anchor matches. -/
def isNl (c : Char) : Bool := c = '\n' || c = '\r'

/-- JavaScript `String.prototype.trim` on character lists. -/
def jsTrim (s : List Char) : List Char :=
  ((s.dropWhile isJsWs).reverse.dropWhile isJsWs).reverse

/-- Whether `pat` is a prefix of `s` (decidable, executable). -/
def startsWithL : List Char → List Char → Bool
  | [], _ => true
  | _ :: _, [] => false
  | p :: ps, c :: cs => c = p && startsWithL ps cs

/-- Whether `pat` occurs as a contiguous substring of `s`
(JavaScript `String.prototype.includes`). -/
def hasSubstr (pat : List Char) : List Char → Bool
  | [] => startsWithL pat []
  | c :: cs => startsWithL pat (c :: cs) || hasSubstr pat cs

/-- JavaScript `GetSubstitution` for a string replacement argument when the
pattern has no capture groups: `$$`, `$&`, a dollar followed by a backquote,
and a dollar followed by a quote are active; everything else is literal. -/
def jsSubst (matched before after : List Char) : List Char → List Char
  | [] => []
  | [c] => [c]
  | c :: d :: r =>
    if c = '$' then
      if d = '$' then '$' :: jsSubst matched before after r
      else if d = '&' then matched ++ jsSubst matched before after r
      else if d = bq then before ++ jsSubst matched before after r
      else if d = '\x27' then after ++ jsSubst matched before after r
      else '$' :: d :: jsSubst matched before after r
    else c :: jsSubst matched before after (d :: r)

/-- Embedding of `s.replace(pat, repl)` with a string `pat`: replaces the first occurrence
only, applying substitution processing to `repl`.  `before` accumulates the
part of the string already passed (needed for the substitution context). -/
def jsReplaceFirstAux (pat repl : List Char) : List Char → List Char → List Char
  | before, [] => if startsWithL pat [] then jsSubst pat before [] repl else []
  | before, c :: cs =>
    if startsWithL pat (c :: cs) then
      jsSubst pat before ((c :: cs).drop pat.length) repl ++ (c :: cs).drop pat.length
    else
      c :: jsReplaceFirstAux pat repl (before ++ [c]) cs

/-- First-occurrence string replacement (JavaScript `replace` with a string
pattern). -/
def jsReplaceFirst (pat repl s : List Char) : List Char :=
  jsReplaceFirstAux pat repl [] s

/-- `s.replace(/pat/g, repl)` for a literal pattern `pat`: replaces every
(non-overlapping, leftmost) occurrence, with substitution processing of
`repl`.  Fuel-based so that it evaluates by kernel reduction; the wrapper
supplies fuel `s.length + 1`, which is always sufficient since every step
consumes at least one character of `s`. -/
def jsReplaceAllAux (pat repl : List Char) : Nat → List Char → List Char → List Char
  | 0, _, s => s
  | _ + 1, _, [] => []
  | fuel + 1, before, c :: cs =>
    if startsWithL pat (c :: cs) && pat ≠ [] then
      jsSubst pat before ((c :: cs).drop pat.length) repl ++
        jsReplaceAllAux pat repl fuel (before ++ pat) ((c :: cs).drop pat.length)
    else
      c :: jsReplaceAllAux pat repl fuel (before ++ [c]) cs

/-- Global literal-pattern replacement. -/
def jsReplaceAll (pat repl s : List Char) : List Char :=
  jsReplaceAllAux pat repl (s.length + 1) [] s

/-! The fenced compose-block pattern.

Both `processYamlCodeBlocks` and `updateYamlCodeBlock` in `src/obsidian.ts`
use the regular expression

  `^‌```ya?ml\s+title=(docker-)?compose\.ya?ml\r?\n([\s\S]*?)\n``` `

(multiline), the former with the `g` flag, the latter without.  Every
alternation point of this pattern is decided by mutually exclusive next
characters (`yaml` vs `yml` differ at the second character, `docker-` vs
`compose.` at the first, `\r` vs `\n` at the first, and `\s+` is followed
by the non-whitespace `t`), and the lazy body stops at the first
`"\n" ++ three backticks`; so a deterministic matcher is faithful. -/

/-- Three backticks (the code fence). -/
def fence : List Char := [bq, bq, bq]

/-- Consume the literal `lit` from the front of `s`, returning the rest. -/
def eatLit : List Char → List Char → Option (List Char)
  | [], s => some s
  | _ :: _, [] => none
  | p :: ps, c :: cs => if c = p then eatLit ps cs else none

/-- Consume `ya?ml`, returning the consumed token and the rest. -/
def eatYamlTok (s : List Char) : Option (List Char × List Char) :=
  match eatLit "yaml".data s with
  | some r => some ("yaml".data, r)
  | none =>
    match eatLit "yml".data s with
    | some r => some ("yml".data, r)
    | none => none

/-- Consume `\s+` (greedy maximal run, at least one character). -/
def eatWs1 (s : List Char) : Option (List Char × List Char) :=
  let run := s.takeWhile isJsWs
  if run.isEmpty then none else some (run, s.dropWhile isJsWs)

/-- Consume the optional `(docker-)?`. -/
def eatDockerOpt (s : List Char) : List Char × List Char :=
  match eatLit "docker-".data s with
  | some r => ("docker-".data, r)
  | none => ([], s)

/-- Consume `\r?\n`. -/
def eatEol : List Char → Option (List Char × List Char)
  | '\r' :: '\n' :: r => some (['\r', '\n'], r)
  | '\n' :: r => some (['\n'], r)
  | _ => none

/-- Whether `s` begins with a newline followed by three backticks. -/
def isCloseAt : List Char → Bool
  | c1 :: c2 :: c3 :: c4 :: _ => c1 = '\n' && c2 = bq && c3 = bq && c4 = bq
  | _ => false

/-- Whether the position right after `u` is a line start, given that the
position at the front of `u` has line-start status `ls`. -/
def lsAfter (ls : Bool) (u : List Char) : Bool :=
  match u.getLast? with
  | none => ls
  | some c => isNl c

/-- Lazy body search: split `s` into the shortest body followed by the
closing `"\n" ++ fence`, returning `(body, rest-after-fence)`. -/
def findCloseFence : List Char → Option (List Char × List Char)
  | [] => none
  | c :: cs =>
    if isCloseAt (c :: cs) then some ([], (c :: cs).drop 4)
    else (findCloseFence cs).map fun x => (c :: x.1, x.2)

/-- Attempt the compose-block pattern at the start of `s`.  Returns
`(matched text, rest)` on success. -/
def matchComposeAt (s : List Char) : Option (List Char × List Char) :=
  (eatLit fence s).bind fun s1 =>
  (eatYamlTok s1).bind fun t1 =>
  (eatWs1 t1.2).bind fun w =>
  (eatLit "title=".data w.2).bind fun s4 =>
  (eatLit "compose.".data (eatDockerOpt s4).2).bind fun s6 =>
  (eatYamlTok s6).bind fun t2 =>
  (eatEol t2.2).bind fun e =>
  (findCloseFence e.2).bind fun bo =>
  some (fence ++ t1.1 ++ w.1 ++ "title=".data ++ (eatDockerOpt s4).1 ++ "compose.".data ++
        t2.1 ++ e.1 ++ bo.1 ++ '\n' :: fence, bo.2)

/-- Leftmost match of the compose-block pattern, only at line starts
(the multiline `^` anchor): `ls` records whether the current position is a
line start.  Returns `(text before the match, matched text, rest)`. -/
def findCompose (ls : Bool) : List Char → Option (List Char × List Char × List Char)
  | [] => none
  | c :: cs =>
    match (if ls then matchComposeAt (c :: cs) else none) with
    | some (m, r) => some ([], m, r)
    | none => (findCompose (isNl c) cs).map fun x => (c :: x.1, x.2.1, x.2.2)

/-- Global regex replacement of every compose block by `repl` (the `g` flag:
scanning resumes right after each match; the position after a match is never
a line start because a match ends with a backtick).  Fuel-based so that it
evaluates by kernel reduction; every step consumes at least one character,
so fuel `s.length + 1` always suffices. -/
def replaceAllComposeAux (repl : List Char) : Nat → Bool → List Char → List Char
  | 0, _, s => s
  | fuel + 1, ls, s =>
    match findCompose ls s with
    | none => s
    | some (pre, _, rest) => pre ++ repl ++ replaceAllComposeAux repl fuel false rest

/-- The normalized block written back for stack content `c`:
language tag `yaml`, title `compose.yaml`, trimmed body. -/
def newComposeBlock (c : List Char) : List Char :=
  "```yaml title=compose.yaml\n".data ++ jsTrim c ++ '\n' :: fence

/-- Embedding of `processYamlCodeBlocks` from `src/obsidian.ts` (the creation-path rule):
global replacement of every matching fenced block by the normalized block. -/
def processYamlCodeBlocks (template stackContent : String) : String :=
  ⟨replaceAllComposeAux (newComposeBlock stackContent.data)
    (template.data.length + 1) true template.data⟩

/-- Embedding of `updateYamlCodeBlock` from `src/obsidian.ts` (the update-in-place rule),
restricted to its pure content transformation: find the first regex match;
if none, fail; otherwise replace the first occurrence of the matched text
(a string-pattern `replace`, hence first occurrence only) by the normalized
block. -/
def updateYamlCodeBlockContent (content newContent : String) : Option String :=
  match findCompose true content.data with
  | none => none
  | some (_, m, _) =>
    some ⟨jsReplaceFirst m (newComposeBlock newContent.data) content.data⟩

/-- The header part of the compose-block pattern (everything before the lazy
body search): three backticks, `ya?ml`, whitespace, `title=`, the optional
`docker-`, `compose.`, `ya?ml` and the end of line.  `matchComposeAt` is this
header followed by the lazy body search; splitting it out lets the two phases
be analysed separately. -/
def matchHdr (s : List Char) : Option (List Char × List Char) :=
  (eatLit fence s).bind fun s1 =>
  (eatYamlTok s1).bind fun t1 =>
  (eatWs1 t1.2).bind fun w =>
  (eatLit "title=".data w.2).bind fun s4 =>
  (eatLit "compose.".data (eatDockerOpt s4).2).bind fun s6 =>
  (eatYamlTok s6).bind fun t2 =>
  (eatEol t2.2).bind fun e =>
  some (fence ++ t1.1 ++ w.1 ++ "title=".data ++ (eatDockerOpt s4).1 ++ "compose.".data ++
        t2.1 ++ e.1, e.2)

/-! Data model. -/

/-- A fetched stack definition file (`DockerStackFile` in `src/github.ts`). -/
structure DockerStackFile where
  name : String
  content : String
deriving DecidableEq

/-- A frontmatter value: the plugin reads string values and writes either a
string or a list of strings (the `tags` property). -/
inductive FmVal where
  | str (v : String)
  | list (v : List String)
deriving DecidableEq

/-- A note: its body text and its frontmatter mapping. -/
structure Note where
  content : String
  fm : List (String × FmVal)
deriving DecidableEq

/-- The vault: an association of paths to notes. -/
abbrev Vault := List (String × Note)

/-- Plugin settings (`DockerToObsiSettings` in `src/main.ts`).  The source
fields `fileNamePrefix` and `fileNameSuffix` appear here as `fileNamePre`
and `fileNameSuf`. -/
structure Settings where
  ghUsername : String
  ghRepository : String
  ghToken : String
  folderPath : String
  frontmatterProperty : String
  templateFilePath : String
  useAI : Bool
  openaiApiKey : String
  fileNamePre : String
  fileNameSuf : String

/-- The default settings (`DEFAULT_SETTINGS` in `src/main.ts`). -/
def defaultSettings : Settings :=
  { ghUsername := "", ghRepository := "", ghToken := "", folderPath := "",
    frontmatterProperty := "stackName", templateFilePath := "", useAI := false,
    openaiApiKey := "", fileNamePre := "", fileNameSuf := "" }

/-- Frontmatter property read (JavaScript object property access). -/
def fmGet (fm : List (String × FmVal)) (k : String) : Option FmVal :=
  (fm.find? (fun p => p.1 == k)).map (·.2)

/-- Frontmatter property write (`processFrontMatter` assignment):
overwrites an existing binding, otherwise appends. -/
def fmSet (fm : List (String × FmVal)) (k : String) (v : FmVal) : List (String × FmVal) :=
  if (fm.find? (fun p => p.1 == k)).isSome then
    fm.map (fun p => if p.1 == k then (k, v) else p)
  else fm ++ [(k, v)]

/-- JavaScript truthiness of an optional frontmatter value: absent and the
empty string are falsy; any other string and any array (even empty) are
truthy. -/
def fmTruthy : Option FmVal → Bool
  | none => false
  | some (.str v) => !(v == "")
  | some (.list _) => true

/-- Lookup in a JavaScript `Map` built with `new Map(pairs)`: `Map.set`
overwrites, so the last binding of a key wins. -/
def jsMapGet (pairs : List (String × String)) (k : String) : Option String :=
  pairs.foldl (fun acc p => if p.1 == k then some p.2 else acc) none

/-! Remote source fetcher (`src/github.ts`). -/

/-- JavaScript `String.prototype.split` with a one-character separator. -/
def splitCharSep (sep : Char) : List Char → List (List Char)
  | [] => [[]]
  | c :: cs =>
    if c = sep then [] :: splitCharSep sep cs
    else
      match splitCharSep sep cs with
      | [] => [[c]]
      | w :: ws => (c :: w) :: ws

/-- The stack-name derivation in `fetchAllComposeStackFiles`
(`src/github.ts`): the JavaScript expression
`path.replace("/compose.yaml", "").split("/").pop() || "__unknown__"`. -/
def stackNameOfPath (path : String) : String :=
  let r := jsReplaceFirst "/compose.yaml".data [] path.data
  match (splitCharSep '/' r).getLast? with
  | none => "__unknown__"
  | some w => if w = [] then "__unknown__" else ⟨w⟩

/-- Pairing of fetched paths with their contents
(`fetchAllComposeStackFiles`); the per-path fetch result is supplied as a
function. -/
def fetchAllComposeStackFiles (fetch : String → String) (paths : List String) :
    List DockerStackFile :=
  paths.map fun p => { name := stackNameOfPath p, content := fetch p }

/-! Text generation adapter (`src/ai.ts`). -/

/-- Embedding of `generateStackDescription` (`src/ai.ts`).  `apiKey` is the
configured credential (`none` when the setting is absent); `call` is the
outcome the generation API would produce if invoked (an `Except.error` for a
network failure, malformed response, or schema validation failure, all of
which surface as exceptions).  The second component records whether a
network call was made. -/
def generateStackDescription (apiKey : Option String) (call : Except String String) :
    String × Bool :=
  match apiKey with
  | none => ("Write description here", false)
  | some k =>
    if jsTrim k.data = [] then ("Write description here", false)
    else
      match call with
      | .ok t => (⟨jsTrim t.data⟩, true)
      | .error _ => ("Write description here", true)

/-- Embedding of `generateStackTags` (`src/ai.ts`), analogous to
`generateStackDescription`; the fallback is the empty list. -/
def generateStackTags (apiKey : Option String) (call : Except String (List String)) :
    List String × Bool :=
  match apiKey with
  | none => ([], false)
  | some k =>
    if jsTrim k.data = [] then ([], false)
    else
      match call with
      | .ok tags => (tags, true)
      | .error _ => ([], true)

/-! Template renderer (`src/obsidian.ts`). -/

/-- Replacement of every `\x7b\x7bdate:<fmt>\x7d\x7d` occurrence by
`fmt <fmt>` (`<fmt>` is one or more non-`\x7d` characters).  The source uses
a function replacement, so no substitution processing applies.  `fmt` stands
for `moment().format`, which is total (moment renders invalid format strings
literally, so the `catch` fallback in the source is unreachable).  Fuel-based
for kernel reduction; every step consumes at least one character. -/
def dateFmtAux (fmt : String → String) : Nat → List Char → List Char
  | 0, s => s
  | _ + 1, [] => []
  | fuel + 1, c :: cs =>
    match (do
      let s1 ← eatLit "\x7b\x7bdate:".data (c :: cs)
      let run := s1.takeWhile (fun ch => !(ch = '\x7d'))
      if run.isEmpty then none
      else
        let s2 ← eatLit "\x7d\x7d".data (s1.dropWhile (fun ch => !(ch = '\x7d')))
        some (run, s2) : Option (List Char × List Char)) with
    | some (run, s2) => (fmt ⟨run⟩).data ++ dateFmtAux fmt fuel s2
    | none => c :: dateFmtAux fmt fuel cs

/-- Embedding of `processDateVariables` (`src/obsidian.ts`): first the
`\x7b\x7bdate:<fmt>\x7d\x7d` form, then the bare `\x7b\x7bdate\x7d\x7d`. -/
def processDateVariables (fmt : String → String) (template : String) : String :=
  let t1 := dateFmtAux fmt (template.data.length + 1) template.data
  ⟨jsReplaceAll "\x7b\x7bdate\x7d\x7d".data (fmt "YYYY/MM/DD").data t1⟩

/-- Hypothesis helper (spec side): every occurrence of `\x7b\x7bdate:` in the
list is followed, somewhere in the remainder of the list, by a closing brace.
Such an occurrence is a closed (or absent) date-format placeholder; an
unclosed occurrence would let the date-format pattern swallow arbitrary
following text. -/
def dateSafe : List Char → Bool
  | [] => true
  | ch :: cs =>
    (!(startsWithL "\x7b\x7bdate:".data (ch :: cs)) || decide ('\x7d' ∈ cs)) && dateSafe cs

/-- Embedding of `processTemplate` (`src/obsidian.ts`).  `useAI` is the
settings flag; `aiDesc` is the description the generation adapter would
produce (only consulted when the intermediate template mentions the about
placeholder and AI is enabled); `fmt` is the current moment's format
function. -/
def processTemplate (useAI : Bool) (aiDesc : String) (fmt : String → String)
    (template : String) (stack : DockerStackFile) : String :=
  let t1 :=
    if hasSubstr "\x7b\x7bstackContent\x7d\x7d".data template.data then
      jsReplaceAll "\x7b\x7bstackContent\x7d\x7d".data stack.content.data template.data
    else
      (processYamlCodeBlocks template stack.content).data
  let description :=
    if hasSubstr "\x7b\x7babout\x7d\x7d".data t1 && useAI then aiDesc
    else "Write description here"
  let t2 := (processDateVariables fmt ⟨t1⟩).data
  ⟨jsReplaceAll "\x7b\x7babout\x7d\x7d".data description.data
    (jsReplaceAll "\x7b\x7bstackName\x7d\x7d".data stack.name.data t2)⟩

/-- A separator for `capitalizeStackName`: the class `[-_\s]`. -/
def isSepChar (c : Char) : Bool := c = '-' || c = '_' || isJsWs c

mutual
/-- Splitting on runs of `[-_\s]+` (JavaScript `split` with that regex):
`splitWord` accumulates the current word in reverse. -/
def splitWord : List Char → List Char → List (List Char)
  | w, [] => [w.reverse]
  | w, c :: cs => if isSepChar c then w.reverse :: splitSkip cs else splitWord (c :: w) cs

/-- State inside a separator run for the `[-_\s]+` split. -/
def splitSkip : List Char → List (List Char)
  | [] => [[]]
  | c :: cs => if isSepChar c then splitSkip cs else splitWord [c] cs
end

/-- Per-word step of `capitalizeStackName`: first character upper-cased, the
rest lower-cased (ASCII case mapping; stack names here are ASCII). -/
def capWord : List Char → List Char
  | [] => []
  | c :: cs => c.toUpper :: cs.map Char.toLower

/-- Embedding of `capitalizeStackName` (`src/obsidian.ts`). -/
def capitalizeStackName (stackName : String) : String :=
  ⟨(List.intercalate " ".data ((splitWord [] stackName.data).map capWord))⟩

/-- Embedding of `generateFileName` (`src/obsidian.ts`); `fmt` is the
current moment's format function used for date placeholders in the
configured name affixes. -/
def generateFileName (fmt : String → String) (st : Settings) (stackName : String) : String :=
  let capitalized := capitalizeStackName stackName
  let p := if st.fileNamePre ≠ "" then processDateVariables fmt st.fileNamePre else ""
  let sfx := if st.fileNameSuf ≠ "" then processDateVariables fmt st.fileNameSuf else ""
  let f1 := if p ≠ "" then p ++ capitalized else capitalized
  let f2 := if sfx ≠ "" then f1 ++ sfx else f1
  f2 ++ ".md"

/-! Note synchronizer (`src/obsidian.ts`). -/

/-- Markdown-file selection (`getMarkdownFiles`): when the trimmed folder
setting is empty every note qualifies, otherwise those whose path starts
with it. -/
def inScope (st : Settings) (path : String) : Bool :=
  let folder := jsTrim st.folderPath.data
  folder.isEmpty || startsWithL folder path.data

/-- Per-note step of `checkNotesForMatchingStacks`: read the configured
frontmatter property, look the value up in the stack map (skipping falsy
values and falsy stack contents), and rewrite the first matching fenced
block.  Returns whether the note was updated, and the resulting note. -/
def syncOne (prop : String) (stackGet : String → Option String) (note : Note) :
    Bool × Note :=
  let v := fmGet note.fm prop
  if fmTruthy v then
    match v with
    | some (.str n) =>
      (match stackGet n with
       | some c =>
         if c = "" then (false, note)
         else
           match updateYamlCodeBlockContent note.content c with
           | some newContent => (true, { note with content := newContent })
           | none => (false, note)
       | none => (false, note))
    | _ => (false, note)
  else (false, note)

/-- Embedding of `checkNotesForMatchingStacks` (`src/obsidian.ts`): returns
the number of notes updated and the resulting vault. -/
def checkNotesForMatchingStacks (st : Settings) (stackFiles : List DockerStackFile)
    (vault : Vault) : Nat × Vault :=
  let stackGet := jsMapGet (stackFiles.map fun s => (s.name, s.content))
  let results := vault.map fun p =>
    if inScope st p.1 then
      let r := syncOne st.frontmatterProperty stackGet p.2
      (r.1, (p.1, r.2))
    else (false, p)
  ((results.filter (·.1)).length, results.map (·.2))

/-- The existing stack names collected by `findMissingStacks`: a truthy
frontmatter value at the configured property is added to the set. -/
def existingFmValues (st : Settings) (vault : Vault) : List FmVal :=
  (vault.filter (fun p => inScope st p.1)).filterMap fun p =>
    if fmTruthy (fmGet p.2.fm st.frontmatterProperty) then
      fmGet p.2.fm st.frontmatterProperty
    else none

/-- Embedding of `findMissingStacks` (`src/obsidian.ts`). -/
def findMissingStacks (st : Settings) (stackFiles : List DockerStackFile)
    (vault : Vault) : List DockerStackFile :=
  stackFiles.filter fun s => !((existingFmValues st vault).contains (FmVal.str s.name))

/-- Frontmatter-value set as the words of claim C5 describe it: every value
present at the configured property, including the empty string. -/
def specFmValues (st : Settings) (vault : Vault) : List FmVal :=
  (vault.filter (fun p => inScope st p.1)).filterMap fun p =>
    fmGet p.2.fm st.frontmatterProperty

/-- Missing-stack detection as the words of claim C5 describe it: every
fetched stack whose name is absent from `specFmValues`. -/
def findMissingSpec (st : Settings) (stackFiles : List DockerStackFile)
    (vault : Vault) : List DockerStackFile :=
  stackFiles.filter fun s => !((specFmValues st vault).contains (FmVal.str s.name))

/-- Vault lookup (`getAbstractFileByPath`). -/
def vaultGet (vault : Vault) (path : String) : Option Note :=
  (vault.find? (fun p => p.1 == path)).map (·.2)

/-- The destination path for one stack inside `createNotesFromTemplate`:
the generated file name, placed under the trimmed folder setting if that is
nonempty. -/
def destPath (fmt : String → String) (st : Settings) (stackName : String) : String :=
  let fileName := generateFileName fmt st stackName
  let folder : List Char := jsTrim st.folderPath.data
  if folder.isEmpty then fileName else ⟨folder⟩ ++ "/" ++ fileName

/-- The note produced for one stack by `createNotesFromTemplate`: the
rendered template as content, the configured frontmatter property set to the
stack name, and — only when the template declares `tags` and AI is enabled —
generated tags. -/
def createdNote (st : Settings) (aiDescFor : DockerStackFile → String)
    (fmt : String → String) (tagsFor : DockerStackFile → List String)
    (tmplContent : String) (tmplHasTags : Bool) (stack : DockerStackFile) : Note :=
  let note0 : Note :=
    { content := processTemplate st.useAI (aiDescFor stack) fmt tmplContent stack, fm := [] }
  let note1 : Note :=
    { note0 with fm := fmSet note0.fm st.frontmatterProperty (.str stack.name) }
  if tmplHasTags && st.useAI then
    { note1 with fm := fmSet note1.fm "tags" (.list (tagsFor stack)) }
  else note1

/-- The per-stack loop of `createNotesFromTemplate`.  `createOk path` is
false when the host `vault.create` call would throw for that path (the
error is caught by the per-stack `try`, and the loop continues); the
frontmatter writes after a successful create are modelled as total. -/
def createGo (st : Settings) (aiDescFor : DockerStackFile → String)
    (fmt : String → String) (tagsFor : DockerStackFile → List String)
    (createOk : String → Bool) (tmplContent : String) (tmplHasTags : Bool) :
    List DockerStackFile → Vault → Nat → Nat × Vault
  | [], vault, count => (count, vault)
  | stack :: rest, vault, count =>
    if (vaultGet vault (destPath fmt st stack.name)).isSome then
      createGo st aiDescFor fmt tagsFor createOk tmplContent tmplHasTags rest vault count
    else if !createOk (destPath fmt st stack.name) then
      createGo st aiDescFor fmt tagsFor createOk tmplContent tmplHasTags rest vault count
    else
      createGo st aiDescFor fmt tagsFor createOk tmplContent tmplHasTags rest
        (vault ++ [(destPath fmt st stack.name,
          createdNote st aiDescFor fmt tagsFor tmplContent tmplHasTags stack)])
        (count + 1)

/-- Embedding of `createNotesFromTemplate` (`src/obsidian.ts`). -/
def createNotesFromTemplate (st : Settings) (aiDescFor : DockerStackFile → String)
    (fmt : String → String) (tagsFor : DockerStackFile → List String)
    (createOk : String → Bool) (stackFiles : List DockerStackFile) (vault : Vault) :
    Nat × Vault :=
  let tPath : List Char := jsTrim st.templateFilePath.data
  if tPath.isEmpty then (0, vault)
  else
    match vaultGet vault ⟨tPath⟩ with
    | none => (0, vault)
    | some tmpl =>
      let tmplHasTags := (fmGet tmpl.fm "tags").isSome
      createGo st aiDescFor fmt tagsFor createOk tmpl.content tmplHasTags stackFiles vault 0

/-! Helper lemmas. -/

theorem startsWithL_append_self (p s : List Char) : startsWithL p (p ++ s) = true := by
  induction p with
  | nil => rfl
  | cons c cs ih => simp [startsWithL, ih]

theorem eatLit_append (p s : List Char) : eatLit p (p ++ s) = some s := by
  induction p with
  | nil => rfl
  | cons c cs ih => simp [eatLit, ih]

theorem eatLit_eq_some {p s r : List Char} (h : eatLit p s = some r) : s = p ++ r := by
  induction p generalizing s with
  | nil => simpa [eatLit, eq_comm] using h
  | cons c cs ih =>
    cases s with
    | nil => simp [eatLit] at h
    | cons d ds =>
      by_cases hd : d = c
      · subst hd
        simp only [eatLit, if_pos rfl] at h
        simpa using ih h
      · simp [eatLit, hd] at h

theorem fmval_contains_iff (l : List FmVal) (a : FmVal) : l.contains a = true ↔ a ∈ l := by
  induction l with
  | nil => simp [List.contains]
  | cons b bs ih =>
    simp only [List.contains, List.elem_cons] at *
    by_cases hab : a = b
    · subst hab
      simp
    · have hbeq : (a == b) = false := by
        simp [hab]
      simp [hbeq, hab, ih]

theorem mem_existingFmValues {st : Settings} {vault : Vault} {w : FmVal} :
    w ∈ existingFmValues st vault ↔
      ∃ p ∈ vault, inScope st p.1 = true ∧
        fmGet p.2.fm st.frontmatterProperty = some w ∧ fmTruthy (some w) = true := by
  simp only [existingFmValues, List.mem_filterMap, List.mem_filter]
  constructor
  · rintro ⟨p, ⟨hv, hs⟩, hf⟩
    by_cases ht : fmTruthy (fmGet p.2.fm st.frontmatterProperty) = true
    · rw [if_pos ht] at hf
      exact ⟨p, hv, hs, hf, hf ▸ ht⟩
    · rw [if_neg ht] at hf
      cases hf
  · rintro ⟨p, hv, hs, hf, ht⟩
    refine ⟨p, ⟨hv, hs⟩, ?_⟩
    rw [hf, if_pos ht]

theorem str_empty_not_mem_existing (st : Settings) (vault : Vault) :
    FmVal.str "" ∉ existingFmValues st vault := by
  rw [mem_existingFmValues]
  rintro ⟨p, -, -, -, ht⟩
  simp [fmTruthy] at ht

/-! Claim theorems. -/

/-- C1, counterexample: on a document with two matching fenced blocks and
stack content `"new"`, the creation-path rule (`processYamlCodeBlocks`) does
not produce the single-match result (it normalizes both blocks), and the
update-path rule (`updateYamlCodeBlock`) does not produce the global result
(it rewrites only the first block) — the opposite of what the claim
states. -/
theorem C1_counterexample :
    processYamlCodeBlocks
        "```yml title=compose.yml\na\n```\nmid\n```yaml title=docker-compose.yaml\nb\n```\n"
        "new" ≠
      "```yaml title=compose.yaml\nnew\n```\nmid\n```yaml title=docker-compose.yaml\nb\n```\n" ∧
    updateYamlCodeBlockContent
        "```yml title=compose.yml\na\n```\nmid\n```yaml title=docker-compose.yaml\nb\n```\n"
        "new" ≠
      some "```yaml title=compose.yaml\nnew\n```\nmid\n```yaml title=compose.yaml\nnew\n```\n" := by
  decide

/-- C1, amended: it is the creation-path substitution (`processYamlCodeBlocks`,
regex with the `g` flag) that applies the pattern globally, normalizing every
matching fenced block, while the update-in-place rule (`updateYamlCodeBlock`,
no `g` flag) rewrites only the first matching block of the document. -/
theorem C1_creation_global_update_single :
    processYamlCodeBlocks
        "```yml title=compose.yml\na\n```\nmid\n```yaml title=docker-compose.yaml\nb\n```\n"
        "new" =
      "```yaml title=compose.yaml\nnew\n```\nmid\n```yaml title=compose.yaml\nnew\n```\n" ∧
    updateYamlCodeBlockContent
        "```yml title=compose.yml\na\n```\nmid\n```yaml title=docker-compose.yaml\nb\n```\n"
        "new" =
      some "```yaml title=compose.yaml\nnew\n```\nmid\n```yaml title=docker-compose.yaml\nb\n```\n" := by
  decide

/-- C2, counterexample: with two fetched stacks of the same name `"a"`
(contents `"c1"` then `"c2"`), a note whose frontmatter matches `"a"` is
rewritten with the second stack's content, not the first one's: `Map.set`
overwrites, so the last entry wins at matching time. -/
theorem C2_counterexample :
    (checkNotesForMatchingStacks defaultSettings [⟨"a", "c1"⟩, ⟨"a", "c2"⟩]
        [("N.md", ⟨"```yaml title=compose.yaml\nold\n```", [("stackName", .str "a")]⟩)]).2 ≠
      [("N.md", ⟨"```yaml title=compose.yaml\nc1\n```", [("stackName", .str "a")]⟩)] := by
  decide

/-- C2, amended: when the fetched stack list contains two stacks of the same
name, both coexist in the list, but at matching time the last stack of that
name wins (map insertion overwrites): the note is rewritten with the later
stack's content. -/
theorem C2_last_stack_wins :
    (∀ n c1 c2 : String, jsMapGet [(n, c1), (n, c2)] n = some c2) ∧
    (checkNotesForMatchingStacks defaultSettings [⟨"a", "c1"⟩, ⟨"a", "c2"⟩]
        [("N.md", ⟨"```yaml title=compose.yaml\nold\n```", [("stackName", .str "a")]⟩)] =
      (1, [("N.md", ⟨"```yaml title=compose.yaml\nc2\n```", [("stackName", .str "a")]⟩)])) := by
  constructor
  · intro n c1 c2
    simp [jsMapGet]
  · decide

/-- C7: with no generation credential configured (absent, or blank after
trimming), `generateStackDescription` returns the literal fallback and
`generateStackTags` returns the empty list, in each case without a network
call; and on any call failure both return the same fallbacks.  Neither
operation can raise: both are total functions into plain values. -/
theorem C7_generation_fallbacks :
    (∀ call, generateStackDescription none call = ("Write description here", false)) ∧
    (∀ call, generateStackTags none call = ([], false)) ∧
    (∀ k call, jsTrim k.data = [] →
      generateStackDescription (some k) call = ("Write description here", false)) ∧
    (∀ k call, jsTrim k.data = [] → generateStackTags (some k) call = ([], false)) ∧
    (∀ apiKey e, (generateStackDescription apiKey (.error e)).1 = "Write description here") ∧
    (∀ apiKey e, (generateStackTags apiKey (.error e)).1 = []) := by
  refine ⟨fun _ => rfl, fun _ => rfl, ?_, ?_, ?_, ?_⟩
  · intro k call h
    simp [generateStackDescription, h]
  · intro k call h
    simp [generateStackTags, h]
  · intro apiKey e
    cases apiKey with
    | none => rfl
    | some k =>
      by_cases h : jsTrim k.data = [] <;> simp [generateStackDescription, h]
  · intro apiKey e
    cases apiKey with
    | none => rfl
    | some k =>
      by_cases h : jsTrim k.data = [] <;> simp [generateStackTags, h]

/-- C7, witness: the no-credential cases at the concrete key `"  "` (blank
after trimming). -/
theorem C7_generation_fallbacks_witness :
    generateStackDescription (some "  ") (.ok "text") = ("Write description here", false) ∧
    generateStackTags (some "  ") (.ok ["db"]) = ([], false) := by
  exact ⟨C7_generation_fallbacks.2.2.1 "  " (.ok "text") (by decide),
         C7_generation_fallbacks.2.2.2.1 "  " (.ok ["db"]) (by decide)⟩

/-- C5, counterexample: with a fetched stack named `""` and a note whose
frontmatter value at the configured key is `""`, the name is present in the
set of frontmatter values (as the claim's words define it, embodied by
`findMissingSpec`), so the claim predicts the stack is not returned; but
`findMissingStacks` returns it (the code skips falsy values). -/
theorem C5_counterexample :
    findMissingStacks defaultSettings [⟨"", "x"⟩]
        [("e.md", ⟨"", [("stackName", .str "")]⟩)] = [⟨"", "x"⟩] ∧
    findMissingSpec defaultSettings [⟨"", "x"⟩]
        [("e.md", ⟨"", [("stackName", .str "")]⟩)] = [] ∧
    ([⟨"", "x"⟩] : List DockerStackFile) ≠ [] := by
  decide

/-- C5, amended: `findMissingStacks` returns exactly those fetched stacks
whose name does not occur as a truthy (in particular nonempty-string)
frontmatter value at the configured key among the in-scope candidate notes;
in particular for stacks A, B, C and notes valued A and C it returns exactly
B. -/
theorem C5_missing_stack_characterization :
    (∀ (st : Settings) (fs : List DockerStackFile) (vault : Vault) (s : DockerStackFile),
      s ∈ findMissingStacks st fs vault ↔
        s ∈ fs ∧ ¬ ∃ p ∈ vault, inScope st p.1 = true ∧
          fmGet p.2.fm st.frontmatterProperty = some (.str s.name) ∧ s.name ≠ "") ∧
    findMissingStacks defaultSettings [⟨"A", "x"⟩, ⟨"B", "y"⟩, ⟨"C", "z"⟩]
        [("a.md", ⟨"", [("stackName", .str "A")]⟩),
         ("c.md", ⟨"", [("stackName", .str "C")]⟩)] = [⟨"B", "y"⟩] := by
  constructor
  · intro st fs vault s
    simp only [findMissingStacks, List.mem_filter, Bool.not_eq_true',
      ← Bool.not_eq_true (List.contains _ _), fmval_contains_iff, mem_existingFmValues]
    constructor
    · rintro ⟨hmem, hnc⟩
      refine ⟨hmem, ?_⟩
      rintro ⟨p, hv, hs, hf, hn⟩
      exact hnc ⟨p, hv, hs, hf, by simp [fmTruthy, hn]⟩
    · rintro ⟨hmem, hnc⟩
      refine ⟨hmem, ?_⟩
      rintro ⟨p, hv, hs, hf, ht⟩
      refine hnc ⟨p, hv, hs, hf, ?_⟩
      intro hn
      rw [hn] at ht
      simp [fmTruthy] at ht
  · decide

/-- C10: an empty-string frontmatter value at the configured key is treated
as having no key: the per-note sync step skips such a note (not modified,
not counted) whatever stacks were fetched — even a stack named `""` — and
missing-stack detection never records the empty string, so a stack named
`""` is always reported missing. -/
theorem C10_empty_string_frontmatter :
    (∀ (prop : String) (stackGet : String → Option String) (note : Note),
      fmGet note.fm prop = some (.str "") → syncOne prop stackGet note = (false, note)) ∧
    (∀ (st : Settings) (fs : List DockerStackFile) (vault : Vault) (s : DockerStackFile),
      s ∈ fs → s.name = "" → s ∈ findMissingStacks st fs vault) := by
  constructor
  · intro prop g note h
    simp [syncOne, h, fmTruthy]
  · intro st fs vault s hmem hname
    simp only [findMissingStacks, List.mem_filter, Bool.not_eq_true']
    refine ⟨hmem, ?_⟩
    rw [hname]
    rw [← Bool.not_eq_true (List.contains _ _)]
    rw [fmval_contains_iff]
    exact str_empty_not_mem_existing st vault

/-- C10, witness: a note valued `""` is skipped even with a stack named `""`
fetched, and a stack named `""` is reported missing. -/
theorem C10_empty_string_frontmatter_witness :
    syncOne "stackName" (jsMapGet [("", "x")]) ⟨"body", [("stackName", .str "")]⟩ =
      (false, ⟨"body", [("stackName", .str "")]⟩) ∧
    (⟨"", "x"⟩ : DockerStackFile) ∈ findMissingStacks defaultSettings [⟨"", "x"⟩] [] := by
  exact ⟨C10_empty_string_frontmatter.1 "stackName" (jsMapGet [("", "x")])
          ⟨"body", [("stackName", .str "")]⟩ (by decide),
         C10_empty_string_frontmatter.2 defaultSettings [⟨"", "x"⟩] [] ⟨"", "x"⟩
          (by decide) rfl⟩

theorem jsReplaceFirstAux_pos (pat repl before s : List Char)
    (h : startsWithL pat s = true) :
    jsReplaceFirstAux pat repl before s =
      jsSubst pat before (s.drop pat.length) repl ++ s.drop pat.length := by
  cases s with
  | nil =>
    rw [jsReplaceFirstAux, if_pos h]
    simp
  | cons c cs => rw [jsReplaceFirstAux, if_pos h]

theorem jsReplaceFirstAux_neg (pat repl before : List Char) (c : Char) (cs : List Char)
    (h : startsWithL pat (c :: cs) = false) :
    jsReplaceFirstAux pat repl before (c :: cs) =
      c :: jsReplaceFirstAux pat repl (before ++ [c]) cs := by
  rw [jsReplaceFirstAux, if_neg (by simp [h])]

theorem jsReplaceFirstAux_strip (l before : List Char) (h : ∀ c ∈ l, c ≠ '/') :
    jsReplaceFirstAux "/compose.yaml".data [] before (l ++ "/compose.yaml".data) = l := by
  induction l generalizing before with
  | nil =>
    have hself : startsWithL "/compose.yaml".data "/compose.yaml".data = true := by
      simpa using startsWithL_append_self "/compose.yaml".data []
    rw [List.nil_append, jsReplaceFirstAux_pos _ _ _ _ hself]
    simp [jsSubst, List.drop_length]
  | cons c l' ih =>
    have hc : c ≠ '/' := h c (by simp)
    have hns : startsWithL "/compose.yaml".data (c :: (l' ++ "/compose.yaml".data)) = false := by
      have hpat : "/compose.yaml".data = '/' :: "compose.yaml".data := rfl
      rw [hpat]
      simp [startsWithL, hc]
    rw [List.cons_append, jsReplaceFirstAux_neg _ _ _ _ _ hns]
    exact congrArg (c :: ·) (ih (before ++ [c]) (fun x hx => h x (by simp [hx])))

theorem splitCharSep_no_sep (sep : Char) (l : List Char) (h : ∀ c ∈ l, c ≠ sep) :
    splitCharSep sep l = [l] := by
  induction l with
  | nil => rfl
  | cons c l' ih =>
    have hc : c ≠ sep := h c (by simp)
    rw [splitCharSep, if_neg hc]
    rw [ih (fun x hx => h x (by simp [hx]))]

/-- C8, counterexample: for a top-level compose file (`"compose.yaml"`), the
code derives the name `"compose.yaml"` itself rather than the sentinel the
claim promises; and for a file merely containing `compose.yaml` in its name
(`"dir/my-compose.yaml"`), the full file name survives instead of the
directory segment. -/
theorem C8_counterexample :
    stackNameOfPath "compose.yaml" = "compose.yaml" ∧
    ("compose.yaml" : String) ≠ "__unknown__" ∧
    stackNameOfPath "dir/my-compose.yaml" = "my-compose.yaml" ∧
    ("my-compose.yaml" : String) ≠ "dir" := by
  decide

/-- C8, amended: the stack name is the last `/`-separated segment of the
path after removing the first occurrence of the literal `"/compose.yaml"`:
for a path `dir ++ "/compose.yaml"` with a nonempty slash-free `dir` it is
`dir`; the sentinel `"__unknown__"` is used exactly when the remaining
segment is empty (e.g. the path `"/compose.yaml"`), while a top-level
`"compose.yaml"` keeps its own file name. -/
theorem C8_stack_name_derivation :
    (∀ d : String, d ≠ "" → (∀ c ∈ d.data, c ≠ '/') →
      stackNameOfPath (d ++ "/compose.yaml") = d) ∧
    stackNameOfPath "compose.yaml" = "compose.yaml" ∧
    stackNameOfPath "/compose.yaml" = "__unknown__" := by
  refine ⟨?_, by decide, by decide⟩
  intro d hne hslash
  have hdata : (d ++ "/compose.yaml").data = d.data ++ "/compose.yaml".data := by
    simp
  have hdne : d.data ≠ [] := fun hd => hne (congrArg String.mk hd)
  unfold stackNameOfPath
  rw [hdata, jsReplaceFirst, jsReplaceFirstAux_strip d.data [] hslash]
  simp only [splitCharSep_no_sep '/' d.data hslash, List.getLast?_singleton]
  rw [if_neg hdne]

/-- C8, witness: the general part of the amended claim at `dir = "app"`. -/
theorem C8_stack_name_derivation_witness :
    stackNameOfPath ("app" ++ "/compose.yaml") = "app" :=
  C8_stack_name_derivation.1 "app" (by decide) (by decide)

theorem splitWord_nonsep (w : List Char) (acc rest : List Char)
    (h : ∀ c ∈ w, isSepChar c = false) :
    splitWord acc (w ++ rest) = splitWord (w.reverse ++ acc) rest := by
  induction w generalizing acc with
  | nil => simp
  | cons c w' ih =>
    have hc : isSepChar c = false := h c (by simp)
    rw [List.cons_append, splitWord, if_neg (by simp [hc])]
    rw [ih (c :: acc) (fun x hx => h x (by simp [hx]))]
    simp

theorem splitSkip_run (r rest : List Char) (h : ∀ c ∈ r, isSepChar c = true) :
    splitSkip (r ++ rest) = splitSkip rest := by
  induction r with
  | nil => simp
  | cons c r' ih =>
    have hc : isSepChar c = true := h c (by simp)
    rw [List.cons_append, splitSkip, if_pos hc]
    exact ih (fun x hx => h x (by simp [hx]))

/-- C9: filename generation always appends `.md` (for every settings value,
date formatter and stack name); and capitalization splits the name on runs
of hyphen, underscore and whitespace, uppercases each word's first letter,
lowercases the rest and rejoins with single spaces: shown in general for a
two-word name with an arbitrary separator run, and concretely
`"my-app_stack"` capitalizes to `"My App Stack"`.  (Determinism is inherent:
the embedding is a pure function of the settings, the formatter and the
name.) -/
theorem C9_filename_generation :
    (∀ (fmt : String → String) (st : Settings) (name : String),
      ∃ base, generateFileName fmt st name = base ++ ".md") ∧
    capitalizeStackName "my-app_stack" = "My App Stack" ∧
    (∀ w1 w2 r : List Char, w1 ≠ [] → w2 ≠ [] → r ≠ [] →
      (∀ c ∈ w1, isSepChar c = false) → (∀ c ∈ w2, isSepChar c = false) →
      (∀ c ∈ r, isSepChar c = true) →
      capitalizeStackName ⟨w1 ++ r ++ w2⟩ = ⟨capWord w1 ++ ' ' :: capWord w2⟩) := by
  refine ⟨?_, by decide, ?_⟩
  · intro fmt st name
    exact ⟨_, rfl⟩
  · intro w1 w2 r hw1 hw2 hr h1 h2 hsep
    have hsplit : splitWord [] (w1 ++ r ++ w2) = [w1, w2] := by
      rw [List.append_assoc, splitWord_nonsep w1 [] (r ++ w2) h1]
      cases r with
      | nil => exact absurd rfl hr
      | cons c r' =>
        have hc : isSepChar c = true := hsep c (by simp)
        rw [List.cons_append, splitWord, if_pos hc]
        rw [splitSkip_run r' w2 (fun x hx => hsep x (by simp [hx]))]
        cases w2 with
        | nil => exact absurd rfl hw2
        | cons c2 w2' =>
          have hc2 : isSepChar c2 = false := h2 c2 (by simp)
          rw [splitSkip, if_neg (by simp [hc2])]
          have : splitWord [c2] (w2' ++ []) = splitWord (w2'.reverse ++ [c2]) [] :=
            splitWord_nonsep w2' [c2] [] (fun x hx => h2 x (by simp [hx]))
          simp only [List.append_nil] at this
          rw [this, splitWord]
          simp
    rw [capitalizeStackName]
    have hdat : (String.mk (w1 ++ r ++ w2)).data = w1 ++ r ++ w2 := rfl
    rw [hdat, hsplit]
    simp [List.intercalate]

/-- C9, witness: the two-word capitalization rule at `"my" ++ "-" ++ "app"`
and the `.md` conclusion at the default settings. -/
theorem C9_filename_generation_witness :
    capitalizeStackName ⟨"my".data ++ "-".data ++ "app".data⟩ =
      ⟨capWord "my".data ++ ' ' :: capWord "app".data⟩ ∧
    ∃ base, generateFileName (fun f => f) defaultSettings "web" = base ++ ".md" := by
  exact ⟨C9_filename_generation.2.2 "my".data "app".data "-".data
          (by decide) (by decide) (by decide) (by decide) (by decide) (by decide),
         C9_filename_generation.1 (fun f => f) defaultSettings "web"⟩

theorem startsWithL_of_append (p q s : List Char) (h : startsWithL (p ++ q) s = true) :
    startsWithL p s = true := by
  induction p generalizing s with
  | nil => rfl
  | cons a p' ih =>
    cases s with
    | nil => simp [startsWithL] at h
    | cons c cs =>
      simp only [List.cons_append, startsWithL, Bool.and_eq_true] at h ⊢
      exact ⟨h.1, ih cs h.2⟩

theorem hasSubstr_of_append (p q s : List Char) (h : hasSubstr (p ++ q) s = true) :
    hasSubstr p s = true := by
  induction s with
  | nil =>
    simp only [hasSubstr] at h ⊢
    exact startsWithL_of_append p q [] h
  | cons c cs ih =>
    simp only [hasSubstr, Bool.or_eq_true] at h ⊢
    rcases h with h | h
    · exact Or.inl (startsWithL_of_append p q (c :: cs) h)
    · exact Or.inr (ih h)

theorem hasSubstr_append_self (p x : List Char) : hasSubstr p (p ++ x) = true := by
  cases p with
  | nil =>
    cases x with
    | nil => rfl
    | cons c cs => simp [hasSubstr, startsWithL]
  | cons a p' =>
    simp only [List.cons_append, hasSubstr, Bool.or_eq_true]
    exact Or.inl (startsWithL_append_self (a :: p') x)

theorem jsSubst_no_dollar (m b a r : List Char) (h : ∀ c ∈ r, c ≠ '$') :
    jsSubst m b a r = r := by
  induction r with
  | nil => rfl
  | cons c tail ih =>
    cases tail with
    | nil => rfl
    | cons d t =>
      have hc : c ≠ '$' := h c (by simp)
      rw [jsSubst, if_neg hc]
      exact congrArg (c :: ·) (ih (fun x hx => h x (by simp [hx])))

theorem jsReplaceAllAux_no_occ (pat repl : List Char) (fuel : Nat) (before s : List Char)
    (h : hasSubstr pat s = false) :
    jsReplaceAllAux pat repl fuel before s = s := by
  induction s generalizing fuel before with
  | nil => cases fuel <;> rfl
  | cons c cs ih =>
    cases fuel with
    | zero => rfl
    | succ fuel =>
      simp only [hasSubstr, Bool.or_eq_false_iff] at h
      rw [jsReplaceAllAux, if_neg (by simp [h.1])]
      exact congrArg (c :: ·) (ih fuel (before ++ [c]) h.2)

theorem jsReplaceAllAux_contains (pat repl : List Char) (hpat : pat ≠ [])
    (hrepl : ∀ c ∈ repl, c ≠ '$') :
    ∀ (s : List Char) (fuel : Nat) (before : List Char), s.length < fuel →
      hasSubstr pat s = true →
      hasSubstr repl (jsReplaceAllAux pat repl fuel before s) = true := by
  intro s
  induction s with
  | nil =>
    intro fuel before _ h
    cases pat with
    | nil => exact absurd rfl hpat
    | cons p ps => simp [hasSubstr, startsWithL] at h
  | cons c cs ih =>
    intro fuel before hfuel h
    cases fuel with
    | zero => omega
    | succ fuel =>
      by_cases hs : startsWithL pat (c :: cs) = true
      · rw [jsReplaceAllAux, if_pos (by simp [hs, hpat])]
        rw [jsSubst_no_dollar pat before _ repl hrepl]
        exact hasSubstr_append_self repl _
      · rw [jsReplaceAllAux, if_neg (by simp [hs])]
        simp only [hasSubstr, Bool.or_eq_true]
        refine Or.inr (ih fuel (before ++ [c]) (by simpa using Nat.lt_of_succ_lt_succ hfuel) ?_)
        simp only [hasSubstr, Bool.or_eq_true] at h
        rcases h with h | h
        · exact absurd h hs
        · exact h

theorem jsReplaceAll_no_occ (pat repl s : List Char) (h : hasSubstr pat s = false) :
    jsReplaceAll pat repl s = s := by
  unfold jsReplaceAll
  exact jsReplaceAllAux_no_occ pat repl (s.length + 1) [] s h

theorem eatLit_none_of_not_startsWith (pat s : List Char)
    (h : startsWithL pat s = false) : eatLit pat s = none := by
  induction pat generalizing s with
  | nil => simp [startsWithL] at h
  | cons p ps ih =>
    cases s with
    | nil => rfl
    | cons c cs =>
      simp only [startsWithL, Bool.and_eq_false_iff] at h
      rcases h with h | h
      · rw [eatLit, if_neg (by simpa using h)]
      · by_cases hc : c = p
        · rw [eatLit, if_pos hc]
          exact ih cs h
        · rw [eatLit, if_neg hc]

theorem dateFmtAux_no_occ (fmt : String → String) (fuel : Nat) (s : List Char)
    (h : hasSubstr "\x7b\x7bdate:".data s = false) :
    dateFmtAux fmt fuel s = s := by
  induction s generalizing fuel with
  | nil => cases fuel <;> rfl
  | cons c cs ih =>
    cases fuel with
    | zero => rfl
    | succ fuel =>
      simp only [hasSubstr, Bool.or_eq_false_iff] at h
      have hlit : eatLit "\x7b\x7bdate:".data (c :: cs) = none :=
        eatLit_none_of_not_startsWith _ _ h.1
      rw [dateFmtAux, hlit]
      exact congrArg (c :: ·) (ih fuel h.2)

theorem processDateVariables_id (fmt : String → String) (s : String)
    (h : hasSubstr "\x7b\x7b".data s.data = false) :
    processDateVariables fmt s = s := by
  have hdate : hasSubstr "\x7b\x7bdate:".data s.data = false := by
    by_contra hx
    rw [← ne_eq, Bool.ne_false_iff] at hx
    have : hasSubstr "\x7b\x7b".data s.data = true :=
      hasSubstr_of_append "\x7b\x7b".data "date:".data s.data hx
    rw [this] at h
    cases h
  have hbare : hasSubstr "\x7b\x7bdate\x7d\x7d".data s.data = false := by
    by_contra hx
    rw [← ne_eq, Bool.ne_false_iff] at hx
    have : hasSubstr "\x7b\x7b".data s.data = true :=
      hasSubstr_of_append "\x7b\x7b".data "date\x7d\x7d".data s.data hx
    rw [this] at h
    cases h
  rw [processDateVariables]
  rw [dateFmtAux_no_occ fmt _ s.data hdate]
  rw [jsReplaceAll, jsReplaceAllAux_no_occ _ _ _ _ _ hbare]

/-- C3, counterexample: the rendered output does not always contain the
stack content verbatim: placeholder substitutions applied after the
content insertion re-trigger on content that looks like a later
placeholder.  With template `"{{stackContent}}"` and stack content
`"{{stackName}}"` (stack name `"web"`), the output is `"web"`, which does
not contain the content. -/
theorem C3_counterexample :
    processTemplate false "" (fun _ => "") "\x7b\x7bstackContent\x7d\x7d"
        ⟨"web", "\x7b\x7bstackName\x7d\x7d"⟩ = "web" ∧
    hasSubstr "\x7b\x7bstackName\x7d\x7d".data "web".data = false := by
  decide

theorem createGo_spec (st : Settings) (aiDescFor : DockerStackFile → String)
    (fmt : String → String) (tagsFor : DockerStackFile → List String)
    (createOk : String → Bool) (tc : String) (ht : Bool) :
    ∀ (fs : List DockerStackFile) (vault : Vault) (count : Nat),
      ∃ e : Vault,
        createGo st aiDescFor fmt tagsFor createOk tc ht fs vault count =
          (count + e.length, vault ++ e) := by
  intro fs
  induction fs with
  | nil =>
    intro vault count
    exact ⟨[], by simp [createGo]⟩
  | cons stack rest ih =>
    intro vault count
    by_cases h1 : (vaultGet vault (destPath fmt st stack.name)).isSome = true
    · obtain ⟨e, he⟩ := ih vault count
      exact ⟨e, by rw [createGo, if_pos h1]; exact he⟩
    · by_cases h2 : createOk (destPath fmt st stack.name) = true
      · obtain ⟨e, he⟩ := ih
          (vault ++ [(destPath fmt st stack.name,
            createdNote st aiDescFor fmt tagsFor tc ht stack)]) (count + 1)
        refine ⟨(destPath fmt st stack.name,
          createdNote st aiDescFor fmt tagsFor tc ht stack) :: e, ?_⟩
        rw [createGo, if_neg h1, if_neg (by simp [h2])]
        rw [he]
        refine Prod.ext ?_ ?_
        · simp
          omega
        · simp
      · obtain ⟨e, he⟩ := ih vault count
        refine ⟨e, ?_⟩
        rw [createGo, if_neg h1, if_pos (by simp [Bool.not_eq_true] at h2 ⊢; exact h2)]
        exact he

/-- C6: `createNotesFromTemplate` returns 0 and leaves the vault unchanged
when the template path setting is blank after trimming or the template file
is missing from the vault; a stack whose destination path already holds a
file is skipped — the loop just moves on, so nothing is overwritten and the
stack is not counted; a per-stack failure (a throwing host `create`,
modelled by `createOk` being false at the destination) likewise does not
abort the remaining stacks; and the result is always `(n, vault ++ e)`
where `e` lists the newly created notes and `n = e.length`, so the returned
value is exactly the number of notes successfully created and pre-existing
vault entries are never modified. -/
theorem C6_create_notes :
    (∀ (st : Settings) (aiDescFor : DockerStackFile → String) (fmt : String → String)
        (tagsFor : DockerStackFile → List String) (createOk : String → Bool)
        (fs : List DockerStackFile) (vault : Vault),
      jsTrim st.templateFilePath.data = [] →
      createNotesFromTemplate st aiDescFor fmt tagsFor createOk fs vault = (0, vault)) ∧
    (∀ (st : Settings) (aiDescFor : DockerStackFile → String) (fmt : String → String)
        (tagsFor : DockerStackFile → List String) (createOk : String → Bool)
        (fs : List DockerStackFile) (vault : Vault),
      vaultGet vault ⟨jsTrim st.templateFilePath.data⟩ = none →
      createNotesFromTemplate st aiDescFor fmt tagsFor createOk fs vault = (0, vault)) ∧
    (∀ (st : Settings) (aiDescFor : DockerStackFile → String) (fmt : String → String)
        (tagsFor : DockerStackFile → List String) (createOk : String → Bool)
        (tc : String) (ht : Bool) (stack : DockerStackFile) (rest : List DockerStackFile)
        (vault : Vault) (count : Nat),
      (vaultGet vault (destPath fmt st stack.name)).isSome = true →
      createGo st aiDescFor fmt tagsFor createOk tc ht (stack :: rest) vault count =
        createGo st aiDescFor fmt tagsFor createOk tc ht rest vault count) ∧
    (∀ (st : Settings) (aiDescFor : DockerStackFile → String) (fmt : String → String)
        (tagsFor : DockerStackFile → List String) (createOk : String → Bool)
        (tc : String) (ht : Bool) (stack : DockerStackFile) (rest : List DockerStackFile)
        (vault : Vault) (count : Nat),
      createOk (destPath fmt st stack.name) = false →
      createGo st aiDescFor fmt tagsFor createOk tc ht (stack :: rest) vault count =
        createGo st aiDescFor fmt tagsFor createOk tc ht rest vault count) ∧
    (∀ (st : Settings) (aiDescFor : DockerStackFile → String) (fmt : String → String)
        (tagsFor : DockerStackFile → List String) (createOk : String → Bool)
        (fs : List DockerStackFile) (vault : Vault),
      ∃ e : Vault,
        createNotesFromTemplate st aiDescFor fmt tagsFor createOk fs vault =
          (e.length, vault ++ e)) := by
  refine ⟨?_, ?_, ?_, ?_, ?_⟩
  · intro st aiDescFor fmt tagsFor createOk fs vault h
    rw [createNotesFromTemplate, if_pos (by simp [h])]
  · intro st aiDescFor fmt tagsFor createOk fs vault h
    by_cases he : (jsTrim st.templateFilePath.data).isEmpty = true
    · rw [createNotesFromTemplate, if_pos he]
    · rw [createNotesFromTemplate, if_neg he, h]
  · intro st aiDescFor fmt tagsFor createOk tc ht stack rest vault count h
    rw [createGo, if_pos h]
  · intro st aiDescFor fmt tagsFor createOk tc ht stack rest vault count h
    by_cases h1 : (vaultGet vault (destPath fmt st stack.name)).isSome = true
    · rw [createGo, if_pos h1]
    · rw [createGo, if_neg h1, if_pos (by simp [h])]
  · intro st aiDescFor fmt tagsFor createOk fs vault
    by_cases he : (jsTrim st.templateFilePath.data).isEmpty = true
    · exact ⟨[], by rw [createNotesFromTemplate, if_pos he]; simp⟩
    · cases hv : vaultGet vault ⟨jsTrim st.templateFilePath.data⟩ with
      | none => exact ⟨[], by rw [createNotesFromTemplate, if_neg he, hv]; simp⟩
      | some tmpl =>
        obtain ⟨e, hgo⟩ := createGo_spec st aiDescFor fmt tagsFor createOk tmpl.content
          ((fmGet tmpl.fm "tags").isSome) fs vault 0
        refine ⟨e, ?_⟩
        rw [createNotesFromTemplate, if_neg he, hv]
        show createGo st aiDescFor fmt tagsFor createOk tmpl.content
            ((fmGet tmpl.fm "tags").isSome) fs vault 0 = (e.length, vault ++ e)
        rw [hgo]
        simp

/-- C6, witness: the configuration-error cases and a skip case at concrete
inputs. -/
theorem C6_create_notes_witness :
    createNotesFromTemplate defaultSettings (fun _ => "") (fun f => f) (fun _ => [])
        (fun _ => true) [⟨"web", "x"⟩] [] = (0, []) ∧
    createGo defaultSettings (fun _ => "") (fun f => f) (fun _ => []) (fun _ => false)
        "T" false [⟨"web", "x"⟩] [] 0 =
      createGo defaultSettings (fun _ => "") (fun f => f) (fun _ => []) (fun _ => false)
        "T" false [] [] 0 := by
  exact ⟨C6_create_notes.1 defaultSettings (fun _ => "") (fun f => f) (fun _ => [])
          (fun _ => true) [⟨"web", "x"⟩] [] (by decide),
         C6_create_notes.2.2.2.1 defaultSettings (fun _ => "") (fun f => f) (fun _ => [])
          (fun _ => false) "T" false ⟨"web", "x"⟩ [] [] 0 rfl⟩

theorem matchComposeAt_ne_bq (c : Char) (cs : List Char) (h : c ≠ bq) :
    matchComposeAt (c :: cs) = none := by
  have hf : eatLit fence (c :: cs) = none := by
    rw [show fence = bq :: [bq, bq] from rfl, eatLit, if_neg h]
  simp [matchComposeAt, hf]

theorem findCompose_cons_none (ls : Bool) (c : Char) (cs : List Char)
    (h : matchComposeAt (c :: cs) = none) :
    findCompose ls (c :: cs) =
      (findCompose (isNl c) cs).map fun x => (c :: x.1, x.2.1, x.2.2) := by
  rw [findCompose]
  cases ls <;> simp [h]

theorem findCompose_cons_some (c : Char) (cs m r : List Char)
    (h : matchComposeAt (c :: cs) = some (m, r)) :
    findCompose true (c :: cs) = some ([], m, r) := by
  rw [findCompose]
  simp [h]

theorem lsAfter_cons (ls : Bool) (c : Char) (u : List Char) :
    lsAfter ls (c :: u) = lsAfter (isNl c) u := by
  cases u with
  | nil => rfl
  | cons d u' => simp [lsAfter, List.getLast?]

theorem findCompose_append_clean (u : List Char) (h : ∀ ch ∈ u, ch ≠ bq) :
    ∀ (ls : Bool) (s : List Char),
      findCompose ls (u ++ s) =
        (findCompose (lsAfter ls u) s).map fun x => (u ++ x.1, x.2.1, x.2.2) := by
  induction u with
  | nil =>
    intro ls s
    cases hfc : findCompose ls s with
    | none => simp [lsAfter, hfc]
    | some x => simp [lsAfter, hfc]
  | cons c u' ih =>
    intro ls s
    rw [List.cons_append, findCompose_cons_none ls c (u' ++ s)
      (matchComposeAt_ne_bq c _ (h c (by simp)))]
    rw [ih (fun x hx => h x (by simp [hx])) (isNl c) s]
    rw [lsAfter_cons]
    cases findCompose (lsAfter (isNl c) u') s with
    | none => rfl
    | some x => simp

theorem eatYamlTok_decomp {s tok r : List Char} (h : eatYamlTok s = some (tok, r)) :
    s = tok ++ r := by
  unfold eatYamlTok at h
  cases h1 : eatLit "yaml".data s with
  | some r1 =>
    rw [h1] at h
    simp only [Option.some.injEq, Prod.mk.injEq] at h
    obtain ⟨htok, hr⟩ := h
    subst htok
    subst hr
    exact eatLit_eq_some h1
  | none =>
    rw [h1] at h
    cases h2 : eatLit "yml".data s with
    | some r2 =>
      rw [h2] at h
      simp only [Option.some.injEq, Prod.mk.injEq] at h
      obtain ⟨htok, hr⟩ := h
      subst htok
      subst hr
      exact eatLit_eq_some h2
    | none =>
      rw [h2] at h
      cases h

theorem eatWs1_decomp {s run r : List Char} (h : eatWs1 s = some (run, r)) :
    s = run ++ r := by
  unfold eatWs1 at h
  by_cases he : (s.takeWhile isJsWs).isEmpty = true
  · simp [he] at h
  · simp only [he, if_false, Bool.false_eq_true, Option.some.injEq, Prod.mk.injEq] at h
    obtain ⟨h1, h2⟩ := h
    subst h1
    subst h2
    exact (List.takeWhile_append_dropWhile isJsWs s).symm

theorem eatDockerOpt_decomp {s d r : List Char} (h : eatDockerOpt s = (d, r)) :
    s = d ++ r := by
  unfold eatDockerOpt at h
  cases h1 : eatLit "docker-".data s with
  | some r1 =>
    rw [h1] at h
    simp only [Prod.mk.injEq] at h
    obtain ⟨hd, hr⟩ := h
    subst hd
    subst hr
    exact eatLit_eq_some h1
  | none =>
    rw [h1] at h
    simp only [Prod.mk.injEq] at h
    obtain ⟨hd, hr⟩ := h
    subst hd
    subst hr
    rfl

theorem eatEol_decomp {s e r : List Char} (h : eatEol s = some (e, r)) : s = e ++ r := by
  unfold eatEol at h
  split at h
  · simp only [Option.some.injEq, Prod.mk.injEq] at h
    obtain ⟨h1, h2⟩ := h
    subst h1
    subst h2
    rfl
  · simp only [Option.some.injEq, Prod.mk.injEq] at h
    obtain ⟨h1, h2⟩ := h
    subst h1
    subst h2
    rfl
  · cases h

theorem isCloseAt_decomp {s : List Char} (h : isCloseAt s = true) :
    s = '\n' :: bq :: bq :: bq :: s.drop 4 := by
  rcases s with _ | ⟨c1, _ | ⟨c2, _ | ⟨c3, _ | ⟨c4, y⟩⟩⟩⟩ <;>
    simp only [isCloseAt, Bool.and_eq_true, decide_eq_true_eq] at h
  · cases h
  · cases h
  · cases h
  · cases h
  · obtain ⟨⟨⟨h1, h2⟩, h3⟩, h4⟩ := h
    subst h1
    subst h2
    subst h3
    subst h4
    rfl

theorem findCloseFence_decomp {s b r : List Char} (h : findCloseFence s = some (b, r)) :
    s = b ++ '\n' :: fence ++ r := by
  induction s generalizing b r with
  | nil => cases h
  | cons c cs ih =>
    rw [findCloseFence] at h
    by_cases hc : isCloseAt (c :: cs) = true
    · rw [if_pos hc] at h
      simp only [Option.some.injEq, Prod.mk.injEq] at h
      obtain ⟨h1, h2⟩ := h
      subst h1
      subst h2
      have hd := isCloseAt_decomp hc
      conv_lhs => rw [hd]
      simp [fence]
    · rw [if_neg hc] at h
      cases hfc : findCloseFence cs with
      | none =>
        rw [hfc] at h
        cases h
      | some x =>
        rw [hfc] at h
        simp only [Option.map_some', Option.some.injEq, Prod.mk.injEq] at h
        obtain ⟨h1, h2⟩ := h
        subst h1
        subst h2
        have hcs := ih (b := x.1) (r := x.2) (by rw [hfc])
        conv_lhs => rw [hcs]
        simp [List.append_assoc]

theorem matchComposeAt_decomp {s m r : List Char} (h : matchComposeAt s = some (m, r)) :
    s = m ++ r ∧ m ≠ [] := by
  unfold matchComposeAt at h
  simp only [Option.bind_eq_some] at h
  obtain ⟨s1, h1, t1, h2, w, h3, s4, h4, s6, h6, t2, h7, e, h8, bo, h9, hfin⟩ := h
  simp only [Option.some.injEq, Prod.mk.injEq] at hfin
  obtain ⟨hm, hr⟩ := hfin
  subst hm
  subst hr
  obtain ⟨dk, dks, hds⟩ : ∃ a b, eatDockerOpt s4 = (a, b) := ⟨_, _, rfl⟩
  simp only [hds] at h6 ⊢
  have e1 := eatLit_eq_some h1
  have e2 := eatYamlTok_decomp h2
  have e3 := eatWs1_decomp h3
  have e4 := eatLit_eq_some h4
  have e5 := eatDockerOpt_decomp hds
  have e6 := eatLit_eq_some h6
  have e7 := eatYamlTok_decomp h7
  have e8 := eatEol_decomp h8
  have e9 := findCloseFence_decomp h9
  constructor
  · rw [e1, e2, e3, e4, e5, e6, e7, e8, e9]
    simp [List.append_assoc]
  · simp [fence]

theorem findCompose_decomp {ls : Bool} {s p m r : List Char}
    (h : findCompose ls s = some (p, m, r)) : s = p ++ m ++ r ∧ m ≠ [] := by
  induction s generalizing ls p m r with
  | nil => cases h
  | cons c cs ih =>
    rw [findCompose] at h
    cases hm : (if ls then matchComposeAt (c :: cs) else none) with
    | some x =>
      simp only [hm, Option.some.injEq, Prod.mk.injEq] at h
      obtain ⟨hp, hm2, hr⟩ := h
      subst hp
      subst hm2
      subst hr
      have hx : matchComposeAt (c :: cs) = some (x.1, x.2) := by
        cases ls with
        | true => simpa using hm
        | false => simp at hm
      obtain ⟨hd, hne⟩ := matchComposeAt_decomp hx
      exact ⟨by simpa using hd, hne⟩
    | none =>
      simp only [hm] at h
      cases hfc : findCompose (isNl c) cs with
      | none =>
        rw [hfc] at h
        cases h
      | some y =>
        rw [hfc] at h
        simp only [Option.map_some', Option.some.injEq, Prod.mk.injEq] at h
        obtain ⟨hp, hm2, hr⟩ := h
        subst hp
        subst hm2
        subst hr
        have hy : findCompose (isNl c) cs = some (y.1, y.2.1, y.2.2) := by
          simpa using hfc
        obtain ⟨hd, hne⟩ := ih hy
        refine ⟨?_, hne⟩
        conv_lhs => rw [hd]
        simp [List.append_assoc]

theorem replaceAllComposeAux_nomatch (repl : List Char) (f : Nat) (ls : Bool)
    (s : List Char) (h : findCompose ls s = none) :
    replaceAllComposeAux repl f ls s = s := by
  cases f with
  | zero => rfl
  | succ f =>
    rw [replaceAllComposeAux]
    simp [h]

theorem replaceAllComposeAux_match (repl : List Char) (f : Nat) (ls : Bool)
    {s p m r : List Char} (h : findCompose ls s = some (p, m, r)) :
    replaceAllComposeAux repl (f + 1) ls s =
      p ++ repl ++ replaceAllComposeAux repl f false r := by
  rw [replaceAllComposeAux]
  simp [h]

theorem replaceAllComposeAux_congr (repl : List Char) :
    ∀ (n : Nat), ∀ (s : List Char), s.length ≤ n → ∀ (f g : Nat) (ls : Bool),
      n < f → n < g →
      replaceAllComposeAux repl f ls s = replaceAllComposeAux repl g ls s := by
  intro n
  induction n using Nat.strong_induction_on with
  | _ n ih =>
    intro s hs f g ls hf hg
    cases f with
    | zero => omega
    | succ f =>
      cases g with
      | zero => omega
      | succ g =>
        cases hfc : findCompose ls s with
        | none =>
          rw [replaceAllComposeAux_nomatch _ _ _ _ hfc,
              replaceAllComposeAux_nomatch _ _ _ _ hfc]
        | some x =>
          obtain ⟨p, m, r⟩ := x
          obtain ⟨hd, hm⟩ := findCompose_decomp hfc
          have hmlen : 0 < m.length := List.length_pos.mpr hm
          have hslen : s.length = p.length + m.length + r.length := by
            simp [hd]
            omega
          have hr : r.length < n := by omega
          rw [replaceAllComposeAux_match _ f _ hfc,
              replaceAllComposeAux_match _ g _ hfc]
          rw [ih r.length hr r (Nat.le_refl _) f g false (by omega) (by omega)]

theorem findCloseFence_exact (T rest : List Char)
    (h : hasSubstr ('\n' :: fence) T = false) :
    findCloseFence (T ++ '\n' :: fence ++ rest) = some (T, rest) := by
  have hnb : ('\n' : Char) ≠ bq := by decide
  induction T with
  | nil =>
    show findCloseFence ('\n' :: fence ++ rest) = some ([], rest)
    rw [show ('\n' :: fence ++ rest : List Char) = '\n' :: bq :: bq :: bq :: rest by
      simp [fence]]
    rw [findCloseFence, if_pos (by simp [isCloseAt])]
    simp
  | cons c T' ih =>
    have hsub : hasSubstr ('\n' :: fence) T' = false := by
      simp only [hasSubstr, Bool.or_eq_false_iff] at h
      exact h.2
    have hstep : ((c :: T') ++ '\n' :: fence ++ rest : List Char) =
        c :: (T' ++ '\n' :: fence ++ rest) := by simp
    by_cases hcl : isCloseAt (c :: (T' ++ '\n' :: fence ++ rest)) = true
    · exfalso
      rcases T' with _ | ⟨t1, _ | ⟨t2, _ | ⟨t3, T''⟩⟩⟩
      · rw [show ([] ++ '\n' :: fence ++ rest : List Char) = '\n' :: bq :: bq :: bq :: rest
          by simp [fence]] at hcl
        simp [isCloseAt, hnb] at hcl
      · rw [show ([t1] ++ '\n' :: fence ++ rest : List Char) = t1 :: '\n' :: bq :: bq :: bq :: rest
          by simp [fence]] at hcl
        simp [isCloseAt, hnb] at hcl
      · rw [show ([t1, t2] ++ '\n' :: fence ++ rest : List Char) =
          t1 :: t2 :: '\n' :: bq :: bq :: bq :: rest by simp [fence]] at hcl
        simp [isCloseAt, hnb] at hcl
      · rw [show ((t1 :: t2 :: t3 :: T'') ++ '\n' :: fence ++ rest : List Char) =
          t1 :: t2 :: t3 :: (T'' ++ '\n' :: fence ++ rest) by simp] at hcl
        simp only [isCloseAt, Bool.and_eq_true, decide_eq_true_eq] at hcl
        obtain ⟨⟨⟨hc1, hc2⟩, hc3⟩, hc4⟩ := hcl
        subst hc1
        subst hc2
        subst hc3
        subst hc4
        simp [hasSubstr, startsWithL, fence] at h
    · rw [hstep, findCloseFence, if_neg hcl, ih hsub]
      rfl

theorem eatYamlTok_yaml (X : List Char) :
    eatYamlTok ("yaml".data ++ X) = some ("yaml".data, X) := by
  simp only [eatYamlTok, eatLit_append]

theorem eatYamlTok_yml (X : List Char) :
    eatYamlTok ("yml".data ++ X) = some ("yml".data, X) := by
  have hma : ('m' : Char) ≠ 'a' := by decide
  have h1 : eatLit "yaml".data ("yml".data ++ X) = none := by
    apply eatLit_none_of_not_startsWith
    rw [show ("yml".data ++ X : List Char) = 'y' :: 'm' :: 'l' :: X from rfl,
        show "yaml".data = ['y', 'a', 'm', 'l'] from rfl]
    simp [startsWithL, hma]
  simp only [eatYamlTok, h1, eatLit_append]

theorem eatWs1_title (X : List Char) :
    eatWs1 (' ' :: ("title=".data ++ X)) = some ([' '], "title=".data ++ X) := by
  have hw1 : isJsWs ' ' = true := by decide
  have hw2 : isJsWs 't' = false := by decide
  show eatWs1 (' ' :: 't' :: ("itle=".data ++ X)) = some ([' '], 't' :: ("itle=".data ++ X))
  simp [eatWs1, List.takeWhile_cons, List.dropWhile_cons, hw1, hw2]

theorem eatDockerOpt_docker (X : List Char) :
    eatDockerOpt ("docker-".data ++ X) = ("docker-".data, X) := by
  simp only [eatDockerOpt, eatLit_append]

theorem eatDockerOpt_compose (X : List Char) :
    eatDockerOpt ("compose.".data ++ X) = ([], "compose.".data ++ X) := by
  have hcd : ('c' : Char) ≠ 'd' := by decide
  have h1 : eatLit "docker-".data ("compose.".data ++ X) = none := by
    apply eatLit_none_of_not_startsWith
    rw [show ("compose.".data ++ X : List Char) = 'c' :: ("ompose.".data ++ X) from rfl,
        show "docker-".data = 'd' :: "ocker-".data from rfl]
    simp [startsWithL, hcd]
  simp only [eatDockerOpt, h1]

theorem eatEol_lf (X : List Char) : eatEol ('\n' :: X) = some (['\n'], X) := by
  simp [eatEol]

theorem matchComposeAt_hdrA (r : List Char) :
    matchComposeAt ("```yaml title=docker-compose.yml\n".data ++ r) =
      (findCloseFence r).map fun x =>
        ("```yaml title=docker-compose.yml\n".data ++ x.1 ++ '\n' :: fence, x.2) := by
  have hfe : fence = "```".data := by decide
  cases hfc : findCloseFence r with
  | none =>
    simp [matchComposeAt, eatLit, eatYamlTok, eatWs1, eatDockerOpt, eatEol, isJsWs, bq,
          hfe, hfc, List.takeWhile_cons, List.dropWhile_cons]
  | some bo =>
    simp [matchComposeAt, eatLit, eatYamlTok, eatWs1, eatDockerOpt, eatEol, isJsWs, bq,
          hfe, hfc, List.takeWhile_cons, List.dropWhile_cons]

theorem matchComposeAt_hdrB (r : List Char) :
    matchComposeAt ("```yaml title=compose.yaml\n".data ++ r) =
      (findCloseFence r).map fun x =>
        ("```yaml title=compose.yaml\n".data ++ x.1 ++ '\n' :: fence, x.2) := by
  have hfe : fence = "```".data := by decide
  cases hfc : findCloseFence r with
  | none =>
    simp [matchComposeAt, eatLit, eatYamlTok, eatWs1, eatDockerOpt, eatEol, isJsWs, bq,
          hfe, hfc, List.takeWhile_cons, List.dropWhile_cons]
  | some bo =>
    simp [matchComposeAt, eatLit, eatYamlTok, eatWs1, eatDockerOpt, eatEol, isJsWs, bq,
          hfe, hfc, List.takeWhile_cons, List.dropWhile_cons]

theorem matchComposeAt_eq_hdr (s : List Char) :
    matchComposeAt s =
      (matchHdr s).bind fun x =>
        (findCloseFence x.2).bind fun bo =>
          some (x.1 ++ bo.1 ++ '\n' :: fence, bo.2) := by
  unfold matchComposeAt matchHdr
  cases h1 : eatLit fence s with
  | none => rfl
  | some s1 =>
    simp only [Option.some_bind]
    cases h2 : eatYamlTok s1 with
    | none => rfl
    | some t1 =>
      simp only [Option.some_bind]
      cases h3 : eatWs1 t1.2 with
      | none => rfl
      | some w =>
        simp only [Option.some_bind]
        cases h4 : eatLit "title=".data w.2 with
        | none => rfl
        | some s4 =>
          simp only [Option.some_bind]
          cases h6 : eatLit "compose.".data (eatDockerOpt s4).2 with
          | none => rfl
          | some s6 =>
            simp only [Option.some_bind]
            cases h7 : eatYamlTok s6 with
            | none => rfl
            | some t2 =>
              simp only [Option.some_bind]
              cases h8 : eatEol t2.2 with
              | none => rfl
              | some e => simp only [Option.some_bind]

theorem eatYamlTok_bq (Z : List Char) : eatYamlTok (bq :: Z) = none := by
  have h1 : eatLit "yaml".data (bq :: Z) = none := by
    rw [show "yaml".data = 'y' :: "aml".data from rfl, eatLit, if_neg (by decide)]
  have h2 : eatLit "yml".data (bq :: Z) = none := by
    rw [show "yml".data = 'y' :: "ml".data from rfl, eatLit, if_neg (by decide)]
  simp [eatYamlTok, h1, h2]

theorem eatLit_cons_eq (p : Char) (ps : List Char) (c : Char) (cs : List Char) :
    eatLit (p :: ps) (c :: cs) = if c = p then eatLit ps cs else none := rfl

theorem eatLit_cross (lit u Z : List Char) (h : ∀ ch ∈ lit, ch ≠ bq) :
    eatLit lit (u ++ bq :: Z) = (eatLit lit u).map (fun r => r ++ bq :: Z) := by
  induction lit generalizing u with
  | nil => simp [eatLit]
  | cons p ps ih =>
    cases u with
    | nil =>
      have hp : p ≠ bq := h p (by simp)
      rw [List.nil_append, eatLit_cons_eq, if_neg (Ne.symm hp)]
      rfl
    | cons a u' =>
      rw [List.cons_append, eatLit_cons_eq, eatLit_cons_eq]
      by_cases ha : a = p
      · rw [if_pos ha, if_pos ha]
        exact ih u' (fun ch hch => h ch (by simp [hch]))
      · rw [if_neg ha, if_neg ha]
        rfl

theorem eatYamlTok_cross (u Z : List Char) :
    eatYamlTok (u ++ bq :: Z) = (eatYamlTok u).map (fun x => (x.1, x.2 ++ bq :: Z)) := by
  have h1 := eatLit_cross "yaml".data u Z (by decide)
  have h2 := eatLit_cross "yml".data u Z (by decide)
  unfold eatYamlTok
  rw [h1, h2]
  cases eatLit "yaml".data u with
  | some r => rfl
  | none =>
    cases eatLit "yml".data u with
    | some r => rfl
    | none => rfl

theorem takeWhile_append_bq (p : Char → Bool) (hz : p bq = false) (u Z : List Char) :
    (u ++ bq :: Z).takeWhile p = u.takeWhile p ∧
    (u ++ bq :: Z).dropWhile p = u.dropWhile p ++ bq :: Z := by
  induction u with
  | nil => simp [List.takeWhile, List.dropWhile, hz]
  | cons a u' ih =>
    by_cases hpa : p a = true
    · simp [List.takeWhile_cons, List.dropWhile_cons, hpa, ih.1, ih.2]
    · simp only [Bool.not_eq_true] at hpa
      simp [List.takeWhile_cons, List.dropWhile_cons, hpa]

theorem eatWs1_cross (u Z : List Char) :
    eatWs1 (u ++ bq :: Z) = (eatWs1 u).map (fun x => (x.1, x.2 ++ bq :: Z)) := by
  have h := takeWhile_append_bq isJsWs (by decide) u Z
  unfold eatWs1
  rw [h.1, h.2]
  by_cases he : (u.takeWhile isJsWs).isEmpty = true
  · simp [he]
  · simp [he]

theorem eatDockerOpt_cross (u Z : List Char) :
    eatDockerOpt (u ++ bq :: Z) = ((eatDockerOpt u).1, (eatDockerOpt u).2 ++ bq :: Z) := by
  have h := eatLit_cross "docker-".data u Z (by decide)
  unfold eatDockerOpt
  rw [h]
  cases eatLit "docker-".data u with
  | some r => rfl
  | none => rfl

theorem eatEol_shape (s : List Char) :
    eatEol s = match s with
      | [] => none
      | [a] => if a = '\n' then some (['\n'], ([] : List Char)) else none
      | a :: b :: r =>
        if a = '\r' ∧ b = '\n' then some (['\r', '\n'], r)
        else if a = '\n' then some (['\n'], b :: r) else none := by
  unfold eatEol
  split
  · simp
  · rename_i r
    cases r with
    | nil => simp
    | cons b r' => simp
  · rename_i h1 h2
    rcases s with _ | ⟨a, _ | ⟨b, r⟩⟩
    · simp
    · have ha : a ≠ '\n' := fun hh => h2 [] (by rw [hh])
      simp [ha]
    · have hab : ¬(a = '\r' ∧ b = '\n') := by
        rintro ⟨ha, hb⟩
        exact h1 r (by rw [ha, hb])
      have ha : a ≠ '\n' := fun hh => h2 (b :: r) (by rw [hh])
      simp [hab, ha]

theorem eatEol_cross (u Z : List Char) :
    eatEol (u ++ bq :: Z) = (eatEol u).map (fun x => (x.1, x.2 ++ bq :: Z)) := by
  rw [eatEol_shape (u ++ bq :: Z), eatEol_shape u]
  rcases u with _ | ⟨a, _ | ⟨b, u'⟩⟩
  · cases Z with
    | nil => simp [bq]
    | cons z Z' => simp [bq]
  · rw [List.cons_append, List.nil_append]
    by_cases ha : a = '\n'
    · subst ha
      simp [bq]
    · simp [bq, ha]
  · rw [List.cons_append, List.cons_append]
    by_cases hab : a = '\r' ∧ b = '\n'
    · obtain ⟨h1, h2⟩ := hab
      subst h1
      subst h2
      simp
    · by_cases ha : a = '\n'
      · subst ha
        simp [hab]
      · simp [hab, ha]

theorem hasSubstr_append_left (pat s t : List Char) (h : hasSubstr pat t = true) :
    hasSubstr pat (s ++ t) = true := by
  induction s with
  | nil => simpa using h
  | cons a s' ih => simp [hasSubstr, ih]

theorem findCloseFence_isSome (s : List Char) (h : hasSubstr ('\n' :: fence) s = true) :
    ∃ x, findCloseFence s = some x := by
  induction s with
  | nil => simp [hasSubstr, startsWithL] at h
  | cons a s' ih =>
    by_cases h1 : startsWithL ('\n' :: fence) (a :: s') = true
    · have hclose : isCloseAt (a :: s') = true := by
        rcases s' with _ | ⟨b, _ | ⟨c3, _ | ⟨d, r⟩⟩⟩ <;>
          simp [startsWithL, fence, Bool.and_eq_true] at h1
        · obtain ⟨ha, hb, hc, hd⟩ := h1
          subst ha; subst hb; subst hc; subst hd
          simp [isCloseAt]
      rw [findCloseFence, if_pos hclose]
      exact ⟨_, rfl⟩
    · have h2 : hasSubstr ('\n' :: fence) s' = true := by
        rw [hasSubstr] at h
        simpa [h1] using h
      obtain ⟨x, hx⟩ := ih h2
      rw [findCloseFence]
      by_cases hc : isCloseAt (a :: s') = true
      · rw [if_pos hc]
        exact ⟨_, rfl⟩
      · rw [if_neg hc, hx]
        exact ⟨_, rfl⟩

theorem eatLit_fence_shape (s : List Char) :
    eatLit fence s = match s with
      | c1 :: c2 :: c3 :: r => if c1 = bq ∧ c2 = bq ∧ c3 = bq then some r else none
      | _ => none := by
  rcases s with _ | ⟨c1, _ | ⟨c2, _ | ⟨c3, r⟩⟩⟩
  · rfl
  · show eatLit (bq :: [bq, bq]) [c1] = none
    rw [eatLit_cons_eq]
    by_cases h : c1 = bq
    · rw [if_pos h]
      rfl
    · rw [if_neg h]
  · show eatLit (bq :: [bq, bq]) [c1, c2] = none
    rw [eatLit_cons_eq]
    by_cases h : c1 = bq
    · rw [if_pos h]
      show eatLit (bq :: [bq]) [c2] = none
      rw [eatLit_cons_eq]
      by_cases h2 : c2 = bq
      · rw [if_pos h2]
        rfl
      · rw [if_neg h2]
    · rw [if_neg h]
  · show eatLit (bq :: [bq, bq]) (c1 :: c2 :: c3 :: r) = _
    rw [eatLit_cons_eq]
    by_cases h1 : c1 = bq
    · rw [if_pos h1]
      show eatLit (bq :: [bq]) (c2 :: c3 :: r) = _
      rw [eatLit_cons_eq]
      by_cases h2 : c2 = bq
      · rw [if_pos h2]
        show eatLit (bq :: ([] : List Char)) (c3 :: r) = _
        rw [eatLit_cons_eq]
        by_cases h3 : c3 = bq
        · rw [if_pos h3]
          simp [h1, h2, h3, eatLit]
        · rw [if_neg h3]
          simp [h3]
      · rw [if_neg h2]
        simp [h2]
    · rw [if_neg h1]
      simp [h1]

theorem matchHdrTail_cross (u Z : List Char) :
    ((eatYamlTok (u ++ bq :: Z)).bind fun t1 =>
      (eatWs1 t1.2).bind fun w =>
      (eatLit "title=".data w.2).bind fun s4 =>
      (eatLit "compose.".data (eatDockerOpt s4).2).bind fun s6 =>
      (eatYamlTok s6).bind fun t2 =>
      (eatEol t2.2).bind fun e =>
      some (fence ++ t1.1 ++ w.1 ++ "title=".data ++ (eatDockerOpt s4).1 ++
            "compose.".data ++ t2.1 ++ e.1, e.2)) =
    ((eatYamlTok u).bind fun t1 =>
      (eatWs1 t1.2).bind fun w =>
      (eatLit "title=".data w.2).bind fun s4 =>
      (eatLit "compose.".data (eatDockerOpt s4).2).bind fun s6 =>
      (eatYamlTok s6).bind fun t2 =>
      (eatEol t2.2).bind fun e =>
      some (fence ++ t1.1 ++ w.1 ++ "title=".data ++ (eatDockerOpt s4).1 ++
            "compose.".data ++ t2.1 ++ e.1, e.2)).map fun x => (x.1, x.2 ++ bq :: Z) := by
  rw [eatYamlTok_cross]
  cases eatYamlTok u with
  | none => rfl
  | some t1 =>
    simp only [Option.map_some', Option.some_bind]
    rw [eatWs1_cross]
    cases eatWs1 t1.2 with
    | none => rfl
    | some w =>
      simp only [Option.map_some', Option.some_bind]
      rw [eatLit_cross "title=".data w.2 Z (by decide)]
      cases eatLit "title=".data w.2 with
      | none => rfl
      | some s4 =>
        simp only [Option.map_some', Option.some_bind]
        rw [eatDockerOpt_cross]
        dsimp only
        rw [eatLit_cross "compose.".data (eatDockerOpt s4).2 Z (by decide)]
        cases eatLit "compose.".data (eatDockerOpt s4).2 with
        | none => rfl
        | some s6 =>
          simp only [Option.map_some', Option.some_bind]
          rw [eatYamlTok_cross]
          cases eatYamlTok s6 with
          | none => rfl
          | some t2 =>
            simp only [Option.map_some', Option.some_bind]
            rw [eatEol_cross]
            cases eatEol t2.2 with
            | none => rfl
            | some e => simp

theorem matchHdr_split (p2 Z : List Char) (hp2 : p2 ≠ []) :
    matchHdr (p2 ++ bq :: bq :: bq :: Z) =
      (matchHdr p2).map fun x => (x.1, x.2 ++ bq :: bq :: bq :: Z) := by
  rcases p2 with _ | ⟨a, _ | ⟨b, _ | ⟨d, p2'⟩⟩⟩
  · exact absurd rfl hp2
  · by_cases ha : a = bq
    · subst ha
      simp [matchHdr, eatLit_fence_shape, eatYamlTok_bq]
    · simp [matchHdr, eatLit_fence_shape, ha]
  · by_cases ha : a = bq
    · subst ha
      by_cases hb : b = bq
      · subst hb
        simp [matchHdr, eatLit_fence_shape, eatYamlTok_bq]
      · simp [matchHdr, eatLit_fence_shape, hb]
    · simp [matchHdr, eatLit_fence_shape, ha]
  · by_cases habd : a = bq ∧ b = bq ∧ d = bq
    · obtain ⟨ha, hb, hd⟩ := habd
      subst ha
      subst hb
      subst hd
      have hf1 : eatLit fence ((bq :: bq :: bq :: p2') ++ bq :: bq :: bq :: Z) =
          some (p2' ++ bq :: bq :: bq :: Z) := by
        rw [show ((bq :: bq :: bq :: p2') ++ bq :: bq :: bq :: Z : List Char) =
            bq :: bq :: bq :: (p2' ++ bq :: bq :: bq :: Z) by simp]
        rw [eatLit_fence_shape]
        show (if bq = bq ∧ bq = bq ∧ bq = bq then some (p2' ++ bq :: bq :: bq :: Z) else none) = _
        rw [if_pos ⟨rfl, rfl, rfl⟩]
      have hf2 : eatLit fence (bq :: bq :: bq :: p2') = some p2' := by
        rw [eatLit_fence_shape]
        show (if bq = bq ∧ bq = bq ∧ bq = bq then some p2' else none) = _
        rw [if_pos ⟨rfl, rfl, rfl⟩]
      unfold matchHdr
      rw [hf1, hf2, Option.some_bind, Option.some_bind]
      exact matchHdrTail_cross p2' (bq :: bq :: Z)
    · have hf1 : eatLit fence (a :: b :: d :: (p2' ++ bq :: bq :: bq :: Z)) = none := by
        rw [eatLit_fence_shape]
        show (if a = bq ∧ b = bq ∧ d = bq then some (p2' ++ bq :: bq :: bq :: Z) else none) = _
        rw [if_neg habd]
      have hf2 : eatLit fence (a :: b :: d :: p2') = none := by
        rw [eatLit_fence_shape]
        show (if a = bq ∧ b = bq ∧ d = bq then some p2' else none) = _
        rw [if_neg habd]
      simp [matchHdr, hf1, hf2]

theorem matchComposeAt_transfer (p2 Zx Zy : List Char) (hp2 : p2 ≠ [])
    (hZx : hasSubstr ('\n' :: fence) (bq :: bq :: bq :: Zx) = true)
    (h : matchComposeAt (p2 ++ bq :: bq :: bq :: Zx) = none) :
    matchComposeAt (p2 ++ bq :: bq :: bq :: Zy) = none := by
  rw [matchComposeAt_eq_hdr] at h ⊢
  rw [matchHdr_split p2 Zx hp2] at h
  rw [matchHdr_split p2 Zy hp2]
  cases hh : matchHdr p2 with
  | none => simp [hh]
  | some x =>
    rw [hh] at h
    exfalso
    have hsub : hasSubstr ('\n' :: fence) (x.2 ++ bq :: bq :: bq :: Zx) = true :=
      hasSubstr_append_left _ _ _ hZx
    obtain ⟨bo, hbo⟩ := findCloseFence_isSome _ hsub
    simp only [Option.map_some', Option.some_bind, hbo] at h
    exact Option.noConfusion h

theorem matchComposeAt_shape {s m r : List Char} (h : matchComposeAt s = some (m, r)) :
    (∃ m1, m = bq :: bq :: bq :: m1) ∧ (∃ m2, m = m2 ++ '\n' :: fence) := by
  unfold matchComposeAt at h
  simp only [Option.bind_eq_some] at h
  obtain ⟨s1, h1, t1, h2, w, h3, s4, h4, s6, h6, t2, h7, e, h8, bo, h9, hfin⟩ := h
  simp only [Option.some.injEq, Prod.mk.injEq] at hfin
  obtain ⟨hm, hr⟩ := hfin
  subst hm
  constructor
  · refine ⟨t1.1 ++ (w.1 ++ ("title=".data ++ ((eatDockerOpt s4).1 ++ ("compose.".data ++
      (t2.1 ++ (e.1 ++ (bo.1 ++ '\n' :: fence))))))), ?_⟩
    simp [fence, List.append_assoc]
  · exact ⟨fence ++ t1.1 ++ w.1 ++ "title=".data ++ (eatDockerOpt s4).1 ++ "compose.".data ++
      t2.1 ++ e.1 ++ bo.1, rfl⟩

theorem findCompose_match {ls : Bool} {s p m r : List Char}
    (h : findCompose ls s = some (p, m, r)) : matchComposeAt (m ++ r) = some (m, r) := by
  induction s generalizing ls p with
  | nil => cases h
  | cons c cs ih =>
    rw [findCompose] at h
    cases hm : (if ls then matchComposeAt (c :: cs) else none) with
    | some x =>
      simp only [hm, Option.some.injEq, Prod.mk.injEq] at h
      obtain ⟨hp, hm2, hr⟩ := h
      subst hp
      subst hm2
      subst hr
      have hx : matchComposeAt (c :: cs) = some (x.1, x.2) := by
        cases ls with
        | true => simpa using hm
        | false => simp at hm
      obtain ⟨hd, _⟩ := matchComposeAt_decomp hx
      rw [← hd]
      exact hx
    | none =>
      simp only [hm] at h
      cases hfc : findCompose (isNl c) cs with
      | none =>
        rw [hfc] at h
        cases h
      | some y =>
        rw [hfc] at h
        simp only [Option.map_some', Option.some.injEq, Prod.mk.injEq] at h
        obtain ⟨hp, hm2, hr⟩ := h
        subst hp
        subst hm2
        subst hr
        exact ih (by simpa using hfc)

theorem findCompose_transfer (NEW out' m r : List Char)
    (hN : ∃ w, NEW = bq :: bq :: bq :: w)
    (hmN : matchComposeAt (NEW ++ out') = some (NEW, out'))
    (hm3 : ∃ m1, m = bq :: bq :: bq :: m1)
    (hfm : hasSubstr ('\n' :: fence) (m ++ r) = true) :
    ∀ (s : List Char) (ls : Bool) (p : List Char),
      findCompose ls s = some (p, m, r) →
      findCompose ls (p ++ (NEW ++ out')) = some (p, NEW, out') := by
  intro s
  induction s with
  | nil =>
    intro ls p h
    cases h
  | cons c cs ih =>
    intro ls p h
    rw [findCompose] at h
    cases hm : (if ls then matchComposeAt (c :: cs) else none) with
    | some x =>
      simp only [hm, Option.some.injEq, Prod.mk.injEq] at h
      obtain ⟨hp, _, _⟩ := h
      subst hp
      have hls : ls = true := by
        cases ls with
        | true => rfl
        | false => simp at hm
      subst hls
      obtain ⟨w, hw⟩ := hN
      rw [List.nil_append]
      have hcons : (NEW ++ out' : List Char) = bq :: (bq :: bq :: w ++ out') := by
        rw [hw]
        simp
      rw [hcons] at hmN
      rw [hw]
      rw [show ((bq :: bq :: bq :: w) ++ out' : List Char) = bq :: (bq :: bq :: w ++ out')
        by simp]
      have := findCompose_cons_some bq (bq :: bq :: w ++ out') NEW out' hmN
      rw [hw] at this
      exact this
    | none =>
      simp only [hm] at h
      cases hfc : findCompose (isNl c) cs with
      | none =>
        rw [hfc] at h
        cases h
      | some y =>
        rw [hfc] at h
        simp only [Option.map_some', Option.some.injEq, Prod.mk.injEq] at h
        obtain ⟨hp, hm2, hr⟩ := h
        subst hp
        have hy : findCompose (isNl c) cs = some (y.1, m, r) := by
          rw [hfc, ← hm2, ← hr]
        have hrec := ih (isNl c) y.1 hy
        rw [List.cons_append, findCompose]
        have hnone : (if ls then matchComposeAt (c :: (y.1 ++ (NEW ++ out'))) else none) =
            none := by
          cases ls with
          | false => rfl
          | true =>
            have hmc : matchComposeAt (c :: cs) = none := by simpa using hm
            have hcs : cs = y.1 ++ (m ++ r) := by
              obtain ⟨hd, _⟩ := findCompose_decomp hy
              simpa [List.append_assoc] using hd
            obtain ⟨m1, hm1⟩ := hm3
            obtain ⟨w, hw⟩ := hN
            have hmr : m ++ r = bq :: bq :: bq :: (m1 ++ r) := by
              rw [hm1]
              simp
            have hx : matchComposeAt ((c :: y.1) ++ bq :: bq :: bq :: (m1 ++ r)) = none := by
              have heq : ((c :: y.1) ++ bq :: bq :: bq :: (m1 ++ r) : List Char) = c :: cs := by
                rw [hcs, hmr]
                simp
              rw [heq]
              exact hmc
            have hZ : hasSubstr ('\n' :: fence) (bq :: bq :: bq :: (m1 ++ r)) = true := by
              rw [← hmr]
              exact hfm
            have hy2 : matchComposeAt ((c :: y.1) ++ bq :: bq :: bq :: (w ++ out')) = none :=
              matchComposeAt_transfer (c :: y.1) (m1 ++ r) (w ++ out') (by simp) hZ hx
            have heq2 : ((c :: y.1) ++ bq :: bq :: bq :: (w ++ out') : List Char) =
                c :: (y.1 ++ (NEW ++ out')) := by
              rw [hw]
              simp
            rw [heq2] at hy2
            simpa using hy2
        rw [hnone, hrec]
        rfl

theorem matchComposeAt_NB (c out' : List Char)
    (hT : hasSubstr ('\n' :: fence) (jsTrim c) = false) :
    matchComposeAt (newComposeBlock c ++ out') = some (newComposeBlock c, out') := by
  have hclose : findCloseFence (jsTrim c ++ ('\n' :: fence ++ out')) =
      some (jsTrim c, out') := by
    simpa [List.append_assoc] using findCloseFence_exact (jsTrim c) out' hT
  have heq : newComposeBlock c ++ out' =
      "```yaml title=compose.yaml\n".data ++ (jsTrim c ++ ('\n' :: fence ++ out')) := by
    simp [newComposeBlock, List.append_assoc]
  rw [heq, matchComposeAt_hdrB, hclose]
  simp [newComposeBlock, List.append_assoc]

theorem replaceAllCompose_idem_aux (c : List Char)
    (hT : hasSubstr ('\n' :: fence) (jsTrim c) = false) :
    ∀ (n : Nat) (s : List Char), s.length ≤ n → ∀ (ls : Bool),
      replaceAllComposeAux (newComposeBlock c)
          ((replaceAllComposeAux (newComposeBlock c) (s.length + 1) ls s).length + 1) ls
          (replaceAllComposeAux (newComposeBlock c) (s.length + 1) ls s) =
        replaceAllComposeAux (newComposeBlock c) (s.length + 1) ls s := by
  intro n
  induction n using Nat.strong_induction_on with
  | _ n ih =>
    intro s hs ls
    cases hfc : findCompose ls s with
    | none =>
      rw [replaceAllComposeAux_nomatch _ _ _ _ hfc, replaceAllComposeAux_nomatch _ _ _ _ hfc]
    | some x =>
      obtain ⟨p, m, r⟩ := x
      obtain ⟨hd, hmne⟩ := findCompose_decomp hfc
      have hmm := findCompose_match hfc
      obtain ⟨hshape, hend⟩ := matchComposeAt_shape hmm
      have hmlen : 0 < m.length := List.length_pos.mpr hmne
      have hslen : s.length = p.length + m.length + r.length := by
        simp [hd]
        omega
      have hr_lt : r.length < n := by omega
      have h1 : replaceAllComposeAux (newComposeBlock c) (s.length + 1) ls s =
          p ++ newComposeBlock c ++ replaceAllComposeAux (newComposeBlock c) s.length false r :=
        replaceAllComposeAux_match _ s.length ls hfc
      have h2 : replaceAllComposeAux (newComposeBlock c) s.length false r =
          replaceAllComposeAux (newComposeBlock c) (r.length + 1) false r :=
        replaceAllComposeAux_congr _ r.length r (Nat.le_refl _) s.length (r.length + 1)
          false (by omega) (by omega)
      set nco := replaceAllComposeAux (newComposeBlock c) (r.length + 1) false r with hnco
      have hIH : replaceAllComposeAux (newComposeBlock c) (nco.length + 1) false nco = nco :=
        ih r.length hr_lt r (Nat.le_refl _) false
      have hNBs : ∃ w, newComposeBlock c = bq :: bq :: bq :: w := by
        refine ⟨"yaml title=compose.yaml\n".data ++ jsTrim c ++ '\n' :: fence, ?_⟩
        show "```yaml title=compose.yaml\n".data ++ jsTrim c ++ '\n' :: fence = _
        rw [show "```yaml title=compose.yaml\n".data =
            bq :: bq :: bq :: "yaml title=compose.yaml\n".data from rfl]
        simp
      have hfm : hasSubstr ('\n' :: fence) (m ++ r) = true := by
        obtain ⟨m2, hm2⟩ := hend
        rw [hm2, List.append_assoc]
        exact hasSubstr_append_left _ _ _ (hasSubstr_append_self _ _)
      have hfc2 : findCompose ls (p ++ (newComposeBlock c ++ nco)) =
          some (p, newComposeBlock c, nco) :=
        findCompose_transfer _ _ m r hNBs (matchComposeAt_NB c _ hT) hshape hfm s ls p hfc
      rw [h1, h2]
      rw [show (p ++ newComposeBlock c ++ nco : List Char) =
          p ++ (newComposeBlock c ++ nco) by simp [List.append_assoc]]
      rw [replaceAllComposeAux_match _ _ _ hfc2]
      have hNBlen : 0 < (newComposeBlock c).length := by
        obtain ⟨w, hw⟩ := hNBs
        rw [hw]
        simp
      have h3 : replaceAllComposeAux (newComposeBlock c)
          ((p ++ (newComposeBlock c ++ nco)).length) false nco =
          replaceAllComposeAux (newComposeBlock c) (nco.length + 1) false nco :=
        replaceAllComposeAux_congr _ nco.length nco (Nat.le_refl _) _ _ false
          (by simp [List.length_append]; omega) (by omega)
      rw [h3, hIH]
      simp [List.append_assoc]

/-- C4, counterexample: with stack content `"a\n```\nb"` — whose trimmed
form contains a closing-fence line — applying the fenced-block substitution
to the output of a previous application with the same stack content changes
the text again: the lazy body of the pattern stops at the first embedded
fence line, so the rule is not idempotent for every template and stack. -/
theorem C4_counterexample :
    processYamlCodeBlocks
        (processYamlCodeBlocks "```yaml title=compose.yml\nold\n```" "a\n```\nb")
        "a\n```\nb" ≠
      processYamlCodeBlocks "```yaml title=compose.yml\nold\n```" "a\n```\nb" := by
  decide

/-- C4, amended: the fenced-block rendering rule is idempotent for every
template provided only that the trimmed stack content contains no
closing-fence line (no substring of a newline followed by three backticks):
applying the substitution to the output of a previous application with the
same stack content yields a byte-identical string.  (With a fence-embedding
stack content the lazy body of the pattern stops at the embedded fence and
idempotence fails, as the counterexample shows.) -/
theorem C4_idempotent_of_fence_free (t c : String)
    (hT : hasSubstr ('\n' :: fence) (jsTrim c.data) = false) :
    processYamlCodeBlocks (processYamlCodeBlocks t c) c = processYamlCodeBlocks t c := by
  have h := replaceAllCompose_idem_aux c.data hT t.data.length t.data (Nat.le_refl _) true
  exact congrArg String.mk h

/-- C4, witness: the amended idempotence at a concrete ordinary document with
two fenced compose blocks and surrounding prose, and a concrete fence-free
stack content. -/
theorem C4_idempotent_of_fence_free_witness :
    hasSubstr ('\n' :: fence) (jsTrim "svc:\n  image: nginx".data) = false ∧
    processYamlCodeBlocks
        (processYamlCodeBlocks
          "Intro\n```yaml title=compose.yml\na: 1\n```\nmid\n```yml title=docker-compose.yaml\nb: 2\n```\ntail"
          "svc:\n  image: nginx") "svc:\n  image: nginx" =
      processYamlCodeBlocks
        "Intro\n```yaml title=compose.yml\na: 1\n```\nmid\n```yml title=docker-compose.yaml\nb: 2\n```\ntail"
        "svc:\n  image: nginx" :=
  ⟨by decide, C4_idempotent_of_fence_free _ _ (by decide)⟩


theorem startsWithL_to_append (p s : List Char) (h : startsWithL p s = true) :
    ∃ rest, s = p ++ rest := by
  induction p generalizing s with
  | nil => exact ⟨s, rfl⟩
  | cons a p' ih =>
    cases s with
    | nil => simp [startsWithL] at h
    | cons b s' =>
      simp only [startsWithL, Bool.and_eq_true, decide_eq_true_eq] at h
      obtain ⟨hb, hsw⟩ := h
      subst hb
      obtain ⟨rest, hrest⟩ := ih s' hsw
      exact ⟨rest, by simp [hrest]⟩

theorem hasSubstr_of_infix (pat x y : List Char) : hasSubstr pat (x ++ pat ++ y) = true := by
  rw [List.append_assoc]
  exact hasSubstr_append_left pat x (pat ++ y) (hasSubstr_append_self pat y)

theorem hasSubstr_to_infix (pat s : List Char) (h : hasSubstr pat s = true) :
    ∃ x y, s = x ++ pat ++ y := by
  induction s with
  | nil =>
    cases pat with
    | nil => exact ⟨[], [], rfl⟩
    | cons p ps => simp [hasSubstr, startsWithL] at h
  | cons a s' ih =>
    by_cases h1 : startsWithL pat (a :: s') = true
    · obtain ⟨rest, hrest⟩ := startsWithL_to_append _ _ h1
      exact ⟨[], rest, by simp [hrest]⟩
    · rw [hasSubstr] at h
      have h2 : hasSubstr pat s' = true := by simpa [h1] using h
      obtain ⟨x, y, hxy⟩ := ih h2
      exact ⟨a :: x, y, by simp [hxy]⟩

theorem hasSubstr_mono_right (pat s w : List Char) (h : hasSubstr pat s = true) :
    hasSubstr pat (s ++ w) = true := by
  obtain ⟨x, y, hxy⟩ := hasSubstr_to_infix pat s h
  rw [hxy, show ((x ++ pat ++ y) ++ w : List Char) = x ++ pat ++ (y ++ w) by
    simp [List.append_assoc]]
  exact hasSubstr_of_infix _ _ _

theorem hasSubstr_strip_left (cl : List Char) (a : Char) (X : List Char)
    (hne : cl ≠ []) (hc : ∀ ch ∈ cl, ch ≠ a) (h : hasSubstr cl (a :: X) = true) :
    hasSubstr cl X = true := by
  rw [hasSubstr] at h
  by_cases h1 : startsWithL cl (a :: X) = true
  · exfalso
    cases cl with
    | nil => exact hne rfl
    | cons c0 cl' =>
      simp only [startsWithL, Bool.and_eq_true, decide_eq_true_eq] at h1
      exact hc c0 (by simp) h1.1.symm
  · simpa [h1] using h

theorem hasSubstr_strip_right (cl : List Char) (a : Char) (X : List Char)
    (hne : cl ≠ []) (hc : ∀ ch ∈ cl, ch ≠ a) (h : hasSubstr cl (X ++ [a]) = true) :
    hasSubstr cl X = true := by
  obtain ⟨x, y, hxy⟩ := hasSubstr_to_infix _ _ h
  rcases List.eq_nil_or_concat y with hy | ⟨y', b, hy⟩
  · subst hy
    rcases List.eq_nil_or_concat cl with hcl | ⟨cl', cb, hcl⟩
    · exact absurd hcl hne
    · have hcl' : cl = cl' ++ [cb] := by simpa using hcl
      rw [List.append_nil] at hxy
      have h2 : X ++ [a] = (x ++ cl') ++ [cb] := by
        rw [hxy, hcl']
        simp [List.append_assoc]
      obtain ⟨_, hb⟩ := List.append_inj' h2 rfl
      have hba : cb = a := by simpa using hb.symm
      exact absurd hba (hc cb (by rw [hcl']; simp))
  · have hy' : y = y' ++ [b] := by simpa using hy
    subst hy'
    have h2 : X ++ [a] = (x ++ cl ++ y') ++ [b] := by
      rw [hxy]
      simp [List.append_assoc]
    obtain ⟨hX, _⟩ := List.append_inj' h2 rfl
    rw [hX]
    exact hasSubstr_of_infix _ _ _

theorem dropWhile_head_false (p : Char → Bool) (l : List Char) (hd : Char) (tl : List Char)
    (h : l.dropWhile p = hd :: tl) : p hd = false := by
  induction l with
  | nil => cases h
  | cons a l' ih =>
    rw [List.dropWhile_cons] at h
    by_cases hpa : p a = true
    · rw [if_pos hpa] at h
      exact ih h
    · rw [if_neg hpa] at h
      injection h with h1 h2
      subst h1
      simpa using hpa

theorem takeWhile_append_stop (p : Char → Bool) (x y : List Char)
    (h : x.dropWhile p ≠ []) :
    (x ++ y).takeWhile p = x.takeWhile p ∧ (x ++ y).dropWhile p = x.dropWhile p ++ y := by
  induction x with
  | nil => simp at h
  | cons a x' ih =>
    by_cases hpa : p a = true
    · have h' : x'.dropWhile p ≠ [] := by
        rw [List.dropWhile_cons, if_pos hpa] at h
        exact h
      obtain ⟨h1, h2⟩ := ih h'
      simp [List.takeWhile_cons, List.dropWhile_cons, hpa, h1, h2]
    · simp only [Bool.not_eq_true] at hpa
      simp [List.takeWhile_cons, List.dropWhile_cons, hpa]

theorem jsReplaceAllAux_scan (pat repl p' : List Char) (hpat1 : pat = '\x7b' :: p') :
    ∀ (cl : List Char), (∀ ch ∈ cl, ch ≠ '\x7b') →
      ∀ (fuel : Nat) (before w2 : List Char), cl.length ≤ fuel →
        jsReplaceAllAux pat repl fuel before (cl ++ w2) =
          cl ++ jsReplaceAllAux pat repl (fuel - cl.length) (before ++ cl) w2 := by
  intro cl
  induction cl with
  | nil =>
    intro _ fuel before w2 _
    simp
  | cons c0 cl' ih =>
    intro hc fuel before w2 hlen
    cases fuel with
    | zero =>
      simp only [List.length_cons] at hlen
      omega
    | succ f =>
      have hns : startsWithL pat (c0 :: (cl' ++ w2)) = false := by
        rw [hpat1]
        simp [startsWithL, hc c0 (by simp)]
      rw [List.cons_append, jsReplaceAllAux, if_neg (by simp [hns])]
      rw [ih (fun x hx => hc x (by simp [hx])) f (before ++ [c0]) w2
        (by simp only [List.length_cons] at hlen; omega)]
      simp [Nat.succ_sub_succ, List.length_cons, List.append_assoc]

theorem jsReplaceAllAux_survive (pat repl cl p' : List Char)
    (hpat1 : pat = '\x7b' :: p')
    (hpat2 : ∃ q, pat = q ++ ['\x7d'])
    (hcb : ∀ ch ∈ cl, ch ≠ '\x7b' ∧ ch ≠ '\x7d')
    (hcp : hasSubstr cl pat = false) :
    ∀ (fuel : Nat) (w1 before w2 : List Char), (w1 ++ cl ++ w2).length < fuel →
      ∃ a b, jsReplaceAllAux pat repl fuel before (w1 ++ cl ++ w2) = a ++ cl ++ b := by
  have hcn : cl ≠ [] := by
    intro h0
    have htrue : hasSubstr cl pat = true := by
      rw [h0]
      cases pat with
      | nil => rfl
      | cons a ps => simp [hasSubstr, startsWithL]
    rw [htrue] at hcp
    exact Bool.noConfusion hcp
  intro fuel
  induction fuel with
  | zero =>
    intro w1 before w2 h
    exact absurd h (Nat.not_lt_zero _)
  | succ f ihf =>
    intro w1 before w2 hlen
    cases w1 with
    | nil =>
      rw [List.nil_append]
      have hsc := jsReplaceAllAux_scan pat repl p' hpat1 cl (fun ch hch => (hcb ch hch).1)
        (f + 1) before w2 (by simp only [List.nil_append, List.length_append] at hlen; omega)
      exact ⟨[], jsReplaceAllAux pat repl ((f + 1) - cl.length) (before ++ cl) w2, by
        simpa using hsc⟩
    | cons ch w1' =>
      rw [show ((ch :: w1') ++ cl ++ w2 : List Char) = ch :: (w1' ++ cl ++ w2) by simp]
      by_cases hsw : startsWithL pat (ch :: (w1' ++ cl ++ w2)) = true
      · have hpne : pat ≠ [] := by
          rw [hpat1]
          simp
        obtain ⟨rest, hrest⟩ := startsWithL_to_append _ _ hsw
        have hfull : ((ch :: w1') ++ (cl ++ w2) : List Char) = pat ++ rest := by
          rw [← hrest]
          simp
        have hopf : pat <+: ((ch :: w1') ++ (cl ++ w2)) := ⟨rest, hfull.symm⟩
        have hwpf : (ch :: w1') <+: ((ch :: w1') ++ (cl ++ w2)) := ⟨cl ++ w2, rfl⟩
        have hple : pat.length ≤ (ch :: w1').length := by
          by_contra hgt
          push_neg at hgt
          obtain ⟨pat2, hvp⟩ := List.prefix_of_prefix_length_le hwpf hopf (le_of_lt hgt)
          have hp2ne : pat2 ≠ [] := by
            intro h0
            rw [h0, List.append_nil] at hvp
            have := congrArg List.length hvp
            omega
          have htail : pat2 ++ rest = cl ++ w2 := by
            have h5 : ((ch :: w1') ++ pat2) ++ rest = (ch :: w1') ++ (cl ++ w2) := by
              rw [hvp, ← hfull]
            rw [List.append_assoc] at h5
            exact List.append_cancel_left h5
          by_cases hle2 : cl.length ≤ pat2.length
          · have hclp : cl <+: (cl ++ w2) := ⟨w2, rfl⟩
            have hp2p : pat2 <+: (cl ++ w2) := ⟨rest, htail⟩
            obtain ⟨z, hz⟩ := List.prefix_of_prefix_length_le hclp hp2p hle2
            have hin : hasSubstr cl pat = true := by
              rw [← hvp, ← hz]
              rw [show ((ch :: w1') ++ (cl ++ z) : List Char) = (ch :: w1') ++ cl ++ z by
                simp [List.append_assoc]]
              exact hasSubstr_of_infix _ _ _
            rw [hin] at hcp
            exact Bool.noConfusion hcp
          · push_neg at hle2
            have hp2p : pat2 <+: (cl ++ w2) := ⟨rest, htail⟩
            have hclp : cl <+: (cl ++ w2) := ⟨w2, rfl⟩
            obtain ⟨c2, hc2⟩ := List.prefix_of_prefix_length_le hp2p hclp (le_of_lt hle2)
            rcases List.eq_nil_or_concat pat2 with h0 | ⟨L, bb, hL⟩
            · exact hp2ne h0
            · have hL' : pat2 = L ++ [bb] := by simpa using hL
              obtain ⟨q, hq⟩ := hpat2
              have he : ((ch :: w1') ++ L) ++ [bb] = q ++ ['\x7d'] := by
                rw [← hq, ← hvp, hL']
                simp [List.append_assoc]
              obtain ⟨_, hb⟩ := List.append_inj' he rfl
              have hbb : bb = '\x7d' := by simpa using hb
              have hmem : bb ∈ cl := by
                rw [← hc2, hL']
                simp
              exact (hcb bb hmem).2 hbb
        obtain ⟨w1'', hw1⟩ := List.prefix_of_prefix_length_le hopf hwpf hple
        have hX : (ch :: (w1' ++ cl ++ w2) : List Char) = pat ++ (w1'' ++ cl ++ w2) := by
          rw [show (ch :: (w1' ++ cl ++ w2) : List Char) = (ch :: w1') ++ (cl ++ w2) by
            simp [List.append_assoc]]
          rw [← hw1]
          simp [List.append_assoc]
        have hdropeq : ((ch :: (w1' ++ cl ++ w2)).drop pat.length) = w1'' ++ cl ++ w2 := by
          rw [hX]
          exact List.drop_left _ _
        rw [jsReplaceAllAux, if_pos (by rw [hsw]; simp [hpne])]
        rw [hdropeq]
        have hlen2 : (w1'' ++ cl ++ w2).length < f := by
          have e1 := congrArg List.length hw1
          simp only [List.length_append, List.length_cons] at e1 hlen ⊢
          have hpl : 0 < pat.length := by
            rw [hpat1]
            simp
          omega
        obtain ⟨a, b, hab⟩ := ihf w1'' (before ++ pat) w2 hlen2
        refine ⟨jsSubst pat before (w1'' ++ cl ++ w2) repl ++ a, b, ?_⟩
        rw [hab]
        simp [List.append_assoc]
      · rw [jsReplaceAllAux,
          if_neg (fun hcon => hsw (by rw [Bool.and_eq_true] at hcon; exact hcon.1))]
        have hlen2 : (w1' ++ cl ++ w2).length < f := by
          simp only [List.length_append, List.length_cons] at hlen ⊢
          omega
        obtain ⟨a, b, hab⟩ := ihf w1' (before ++ [ch]) w2 hlen2
        exact ⟨ch :: a, b, by rw [hab]; simp⟩

theorem dateFmtAux_cons_none (fmt : String → String) (f : Nat) (ch : Char) (cs : List Char)
    (h : eatLit "\x7b\x7bdate:".data (ch :: cs) = none) :
    dateFmtAux fmt (f + 1) (ch :: cs) = ch :: dateFmtAux fmt f cs := by
  rw [dateFmtAux, h]
  rfl

theorem dateFmtAux_cons_empty (fmt : String → String) (f : Nat) (ch : Char) (cs s1 : List Char)
    (h : eatLit "\x7b\x7bdate:".data (ch :: cs) = some s1)
    (hrun : s1.takeWhile (fun x => !(x = '\x7d')) = []) :
    dateFmtAux fmt (f + 1) (ch :: cs) = ch :: dateFmtAux fmt f cs := by
  rw [dateFmtAux, h]
  simp only [Option.bind_eq_bind, Option.some_bind]
  rw [hrun]
  rfl

theorem dateFmtAux_cons_noclose (fmt : String → String) (f : Nat) (ch : Char)
    (cs s1 : List Char)
    (h : eatLit "\x7b\x7bdate:".data (ch :: cs) = some s1)
    (hrun : s1.takeWhile (fun x => !(x = '\x7d')) ≠ [])
    (h2 : eatLit "\x7d\x7d".data (s1.dropWhile (fun x => !(x = '\x7d'))) = none) :
    dateFmtAux fmt (f + 1) (ch :: cs) = ch :: dateFmtAux fmt f cs := by
  obtain ⟨a, l, htw⟩ : ∃ a l, s1.takeWhile (fun x => !(x = '\x7d')) = a :: l := by
    cases htw : s1.takeWhile (fun x => !(x = '\x7d')) with
    | nil => exact absurd htw hrun
    | cons a l => exact ⟨a, l, rfl⟩
  rw [dateFmtAux, h]
  simp only [Option.bind_eq_bind, Option.some_bind]
  rw [htw, h2]
  rfl

theorem dateFmtAux_cons_match (fmt : String → String) (f : Nat) (ch : Char)
    (cs s1 s2 : List Char)
    (h : eatLit "\x7b\x7bdate:".data (ch :: cs) = some s1)
    (hrun : s1.takeWhile (fun x => !(x = '\x7d')) ≠ [])
    (h2 : eatLit "\x7d\x7d".data (s1.dropWhile (fun x => !(x = '\x7d'))) = some s2) :
    dateFmtAux fmt (f + 1) (ch :: cs) =
      (fmt ⟨s1.takeWhile (fun x => !(x = '\x7d'))⟩).data ++ dateFmtAux fmt f s2 := by
  obtain ⟨a, l, htw⟩ : ∃ a l, s1.takeWhile (fun x => !(x = '\x7d')) = a :: l := by
    cases htw : s1.takeWhile (fun x => !(x = '\x7d')) with
    | nil => exact absurd htw hrun
    | cons a l => exact ⟨a, l, rfl⟩
  rw [dateFmtAux, h]
  simp only [Option.bind_eq_bind, Option.some_bind]
  rw [htw, h2]
  rfl

theorem dateFmtAux_scan (fmt : String → String) :
    ∀ (cl : List Char), (∀ ch ∈ cl, ch ≠ '\x7b') →
      ∀ (f : Nat) (v : List Char), cl.length ≤ f →
        dateFmtAux fmt f (cl ++ v) = cl ++ dateFmtAux fmt (f - cl.length) v := by
  intro cl
  induction cl with
  | nil =>
    intro _ f v _
    simp
  | cons ch cl' ih =>
    intro hc f v hlen
    cases f with
    | zero =>
      simp only [List.length_cons] at hlen
      omega
    | succ f' =>
      have hee : eatLit "\x7b\x7bdate:".data (ch :: (cl' ++ v)) = none := by
        apply eatLit_none_of_not_startsWith
        rw [show "\x7b\x7bdate:".data = '\x7b' :: "\x7bdate:".data from rfl]
        simp [startsWithL, hc ch (by simp)]
      rw [List.cons_append, dateFmtAux_cons_none fmt f' ch (cl' ++ v) hee]
      rw [ih (fun x hx => hc x (by simp [hx])) f' v
        (by simp only [List.length_cons] at hlen; omega)]
      simp [Nat.succ_sub_succ, List.length_cons]

theorem dateSafe_spec : ∀ (l : List Char), dateSafe l = true →
    ∀ u1 u2, l = u1 ++ "\x7b\x7bdate:".data ++ u2 → '\x7d' ∈ u2 := by
  intro l
  induction l with
  | nil =>
    intro _ u1 u2 h
    exfalso
    cases u1 with
    | nil => simp at h
    | cons a u1' => simp at h
  | cons ch cs ih =>
    intro hs u1 u2 heq
    rw [dateSafe] at hs
    simp only [Bool.and_eq_true] at hs
    obtain ⟨hs1, hs2⟩ := hs
    cases u1 with
    | nil =>
      simp only [List.nil_append] at heq
      have hsw : startsWithL "\x7b\x7bdate:".data (ch :: cs) = true := by
        rw [heq]
        exact startsWithL_append_self _ _
      rw [hsw] at hs1
      simp only [Bool.not_true, Bool.false_or, decide_eq_true_eq] at hs1
      have heq2 : ch = '\x7b' ∧ cs = "\x7bdate:".data ++ u2 := by
        simpa using heq
      rw [heq2.2] at hs1
      rcases List.mem_append.mp hs1 with h | h
      · exact absurd h (by decide)
      · exact h
    | cons a u1' =>
      have heq2 : ch = a ∧ cs = u1' ++ "\x7b\x7bdate:".data ++ u2 := by
        simpa [List.append_assoc] using heq
      exact ih hs2 u1' u2 heq2.2

theorem dateFmtAux_survive (fmt : String → String) (c : List Char)
    (hcb : ∀ ch ∈ c, ch ≠ '\x7b' ∧ ch ≠ '\x7d')
    (hcn : c ≠ [])
    (hd3 : hasSubstr c "date:".data = false) :
    ∀ (f : Nat) (w v : List Char), (w ++ c ++ v).length < f →
      (∀ u1 u2, w ++ c = u1 ++ "\x7b\x7bdate:".data ++ u2 → '\x7d' ∈ u2) →
      ∃ a b, dateFmtAux fmt f (w ++ c ++ v) = a ++ c ++ b := by
  intro f
  induction f with
  | zero =>
    intro w v h _
    exact absurd h (Nat.not_lt_zero _)
  | succ f ihf =>
    intro w v hlen Hw
    cases w with
    | nil =>
      rw [List.nil_append]
      have hlc : c.length ≤ f + 1 := by
        simp only [List.nil_append, List.length_append] at hlen
        omega
      have hscan := dateFmtAux_scan fmt c (fun ch hch => (hcb ch hch).1) (f + 1) v hlc
      exact ⟨[], dateFmtAux fmt ((f + 1) - c.length) v, by simpa using hscan⟩
    | cons ch w' =>
      have hw_cons : ((ch :: w') ++ c ++ v : List Char) = ch :: (w' ++ c ++ v) := by simp
      rw [hw_cons]
      have hemit : dateFmtAux fmt (f + 1) (ch :: (w' ++ c ++ v)) =
          ch :: dateFmtAux fmt f (w' ++ c ++ v) →
          ∃ a b, dateFmtAux fmt (f + 1) (ch :: (w' ++ c ++ v)) = a ++ c ++ b := by
        intro hstep
        have hlen' : (w' ++ c ++ v).length < f := by
          rw [hw_cons] at hlen
          simp only [List.length_cons, List.length_append] at hlen ⊢
          omega
        have Hw' : ∀ u1 u2, w' ++ c = u1 ++ "\x7b\x7bdate:".data ++ u2 → '\x7d' ∈ u2 := by
          intro u1 u2 hu
          exact Hw (ch :: u1) u2 (by rw [List.cons_append, hu]; simp)
        obtain ⟨a, b, hab⟩ := ihf w' v hlen' Hw'
        exact ⟨ch :: a, b, by rw [hstep, hab]; simp⟩
      cases heat : eatLit "\x7b\x7bdate:".data (ch :: (w' ++ c ++ v)) with
      | none => exact hemit (dateFmtAux_cons_none fmt f ch _ heat)
      | some s1 =>
        have hdec0 := eatLit_eq_some heat
        have hops : "\x7b\x7bdate:".data <+: ((ch :: w') ++ (c ++ v)) := by
          refine ⟨s1, ?_⟩
          rw [← hdec0]
          simp
        have hwpf : (ch :: w') <+: ((ch :: w') ++ (c ++ v)) := ⟨c ++ v, rfl⟩
        by_cases hle : ("\x7b\x7bdate:".data : List Char).length ≤ (ch :: w').length
        · obtain ⟨w1, hw1⟩ := List.prefix_of_prefix_length_le hops hwpf hle
          have hbr : '\x7d' ∈ w1 := by
            have hmem := Hw [] (w1 ++ c) (by rw [← hw1]; simp [List.append_assoc])
            rcases List.mem_append.mp hmem with h | h
            · exact h
            · exact absurd rfl ((hcb _ h).2)
          have hs1 : s1 = w1 ++ (c ++ v) := by
            have hboth : ("\x7b\x7bdate:".data ++ s1 : List Char) =
                "\x7b\x7bdate:".data ++ (w1 ++ (c ++ v)) := by
              rw [← hdec0]
              rw [show (ch :: (w' ++ c ++ v) : List Char) = (ch :: w') ++ (c ++ v) by
                simp [List.append_assoc]]
              rw [← hw1]
              simp [List.append_assoc]
            exact List.append_cancel_left hboth
          have hdwne : w1.dropWhile (fun x => !(x = '\x7d')) ≠ [] := by
            intro hnil
            have hall := List.dropWhile_eq_nil_iff.mp hnil
            have := hall '\x7d' hbr
            simp at this
          obtain ⟨htw, hdw⟩ := takeWhile_append_stop (fun x => !(x = '\x7d')) w1 (c ++ v) hdwne
          obtain ⟨hd1, tl, hdw1⟩ : ∃ hd tl,
              w1.dropWhile (fun x => !(x = '\x7d')) = hd :: tl := by
            cases hx : w1.dropWhile (fun x => !(x = '\x7d')) with
            | nil => exact absurd hx hdwne
            | cons hd tl => exact ⟨hd, tl, rfl⟩
          have hhd : hd1 = '\x7d' := by
            have := dropWhile_head_false _ _ _ _ hdw1
            simpa using this
          subst hhd
          by_cases hre : s1.takeWhile (fun x => !(x = '\x7d')) = []
          · exact hemit (dateFmtAux_cons_empty fmt f ch _ s1 heat hre)
          · have hdrop_s1 : s1.dropWhile (fun x => !(x = '\x7d')) =
                '\x7d' :: (tl ++ (c ++ v)) := by
              rw [hs1, hdw, hdw1]
              simp
            cases htl : tl with
            | nil =>
              obtain ⟨c0, c', hc0⟩ : ∃ c0 c', c = c0 :: c' := by
                cases hx : c with
                | nil => exact absurd hx hcn
                | cons c0 c' => exact ⟨c0, c', rfl⟩
              have hcl : eatLit "\x7d\x7d".data
                  (s1.dropWhile (fun x => !(x = '\x7d'))) = none := by
                rw [hdrop_s1, htl, hc0]
                rw [show (([] : List Char) ++ (c0 :: c' ++ v)) = c0 :: (c' ++ v) by simp]
                rw [show "\x7d\x7d".data = '\x7d' :: ['\x7d'] from rfl]
                rw [eatLit_cons_eq, if_pos rfl, eatLit_cons_eq,
                    if_neg (fun hh => ((hcb c0 (by rw [hc0]; simp)).2) hh)]
              exact hemit (dateFmtAux_cons_noclose fmt f ch _ s1 heat hre hcl)
            | cons x tl' =>
              by_cases hx7 : x = '\x7d'
              · subst hx7
                have hcl : eatLit "\x7d\x7d".data
                    (s1.dropWhile (fun x => !(x = '\x7d'))) = some (tl' ++ (c ++ v)) := by
                  rw [hdrop_s1, htl]
                  rw [show (('\x7d' :: tl') ++ (c ++ v) : List Char) =
                    '\x7d' :: (tl' ++ (c ++ v)) by simp]
                  rw [show "\x7d\x7d".data = '\x7d' :: ['\x7d'] from rfl]
                  rw [eatLit_cons_eq, if_pos rfl, eatLit_cons_eq, if_pos rfl]
                  rfl
                have hstep := dateFmtAux_cons_match fmt f ch _ s1 _ heat hre hcl
                have e1 : ("\x7b\x7bdate:".data ++ w1 : List Char).length =
                    (ch :: w').length := by rw [hw1]
                have e2 := List.takeWhile_append_dropWhile (fun x => !(x = '\x7d')) w1
                have e3 : (w1.takeWhile (fun x => !(x = '\x7d')) ++
                    w1.dropWhile (fun x => !(x = '\x7d'))).length = w1.length := by rw [e2]
                rw [hdw1, htl] at e3
                have e0 : ("\x7b\x7bdate:".data : List Char).length = 7 := by decide
                simp only [List.length_append, List.length_cons, e0] at e1 e3
                have hlen0 := hlen
                rw [hw_cons] at hlen0
                simp only [List.length_cons, List.length_append] at hlen0
                have hlen2 : (tl' ++ c ++ v).length < f := by
                  simp only [List.length_append]
                  omega
                have hw1split : w1 = w1.takeWhile (fun x => !(x = '\x7d')) ++
                    ('\x7d' :: ('\x7d' :: tl')) := by
                  conv_lhs => rw [← e2]
                  rw [hdw1, htl]
                have Hw2 : ∀ u1 u2, tl' ++ c = u1 ++ "\x7b\x7bdate:".data ++ u2 →
                    '\x7d' ∈ u2 := by
                  intro u1 u2 hu
                  apply Hw ("\x7b\x7bdate:".data ++
                    w1.takeWhile (fun x => !(x = '\x7d')) ++ '\x7d' :: '\x7d' :: u1) u2
                  rw [← hw1]
                  conv_lhs => rw [hw1split]
                  simp only [List.append_assoc, List.cons_append]
                  rw [show tl' ++ c = u1 ++ ("\x7b\x7bdate:".data ++ u2) by
                    simpa [List.append_assoc] using hu]
                  simp
                obtain ⟨a, b, hab⟩ := ihf tl' v hlen2 Hw2
                refine ⟨(fmt ⟨s1.takeWhile (fun x => !(x = '\x7d'))⟩).data ++ a, b, ?_⟩
                rw [hstep]
                rw [show (tl' ++ (c ++ v) : List Char) = tl' ++ c ++ v by
                  simp [List.append_assoc]]
                rw [hab]
                simp [List.append_assoc]
              · have hcl : eatLit "\x7d\x7d".data
                    (s1.dropWhile (fun x => !(x = '\x7d'))) = none := by
                  rw [hdrop_s1, htl]
                  rw [show ((x :: tl') ++ (c ++ v) : List Char) =
                    x :: (tl' ++ (c ++ v)) by simp]
                  rw [show "\x7d\x7d".data = '\x7d' :: ['\x7d'] from rfl]
                  rw [eatLit_cons_eq, if_pos rfl, eatLit_cons_eq, if_neg hx7]
                exact hemit (dateFmtAux_cons_noclose fmt f ch _ s1 heat hre hcl)
        · exfalso
          push_neg at hle
          have hops2 : "\x7b\x7bdate:".data <+: (((ch :: w') ++ c) ++ v) := by
            refine ⟨s1, ?_⟩
            rw [← hdec0]
            simp [List.append_assoc]
          by_cases hle2 : ("\x7b\x7bdate:".data : List Char).length ≤ ((ch :: w') ++ c).length
          · have hpre2 : ((ch :: w') ++ c) <+: (((ch :: w') ++ c) ++ v) := ⟨v, rfl⟩
            obtain ⟨u2', hu2⟩ := List.prefix_of_prefix_length_le hops2 hpre2 hle2
            have hmem := Hw [] u2' (by rw [← hu2]; simp)
            have hwp : (ch :: w') <+: ((ch :: w') ++ c) := ⟨c, rfl⟩
            have hop3 : ("\x7b\x7bdate:".data : List Char) <+: ((ch :: w') ++ c) := ⟨u2', hu2⟩
            obtain ⟨tpart, htp⟩ := List.prefix_of_prefix_length_le hwp hop3 (le_of_lt hle)
            have h5 : ((ch :: w') ++ tpart) ++ u2' = (ch :: w') ++ c := by
              rw [htp, hu2]
            rw [List.append_assoc] at h5
            have hceq := List.append_cancel_left h5
            have hmc : '\x7d' ∈ c := by
              rw [← hceq]
              exact List.mem_append.mpr (Or.inr hmem)
            exact (hcb _ hmc).2 rfl
          · push_neg at hle2
            have hpre2 : ((ch :: w') ++ c) <+: (((ch :: w') ++ c) ++ v) := ⟨v, rfl⟩
            obtain ⟨z, hz⟩ := List.prefix_of_prefix_length_le hpre2 hops2 (le_of_lt hle2)
            have hsub : hasSubstr c "\x7b\x7bdate:".data = true := by
              rw [← hz]
              rw [show (((ch :: w') ++ c) ++ z : List Char) = (ch :: w') ++ c ++ z by
                simp [List.append_assoc]]
              exact hasSubstr_of_infix _ _ _
            have hsub2 : hasSubstr c ('\x7b' :: ('\x7b' :: "date:".data)) = true := by
              rw [show ('\x7b' :: ('\x7b' :: "date:".data) : List Char) =
                "\x7b\x7bdate:".data from rfl]
              exact hsub
            have hsub3 := hasSubstr_strip_left c '\x7b' ('\x7b' :: "date:".data) hcn
              (fun x hx => (hcb x hx).1) hsub2
            have hsub4 := hasSubstr_strip_left c '\x7b' "date:".data hcn
              (fun x hx => (hcb x hx).1) hsub3
            rw [hsub4] at hd3
            exact Bool.noConfusion hd3

theorem no_sub_date (c : List Char) (hcb : ∀ ch ∈ c, ch ≠ '\x7b' ∧ ch ≠ '\x7d')
    (hd3 : hasSubstr c "date:".data = false) :
    hasSubstr c "\x7b\x7bdate\x7d\x7d".data = false := by
  have hcn : c ≠ [] := by
    intro h0
    have htrue : hasSubstr c "date:".data = true := by
      rw [h0]
      decide
    rw [htrue] at hd3
    exact Bool.noConfusion hd3
  by_contra hx
  rw [← ne_eq, Bool.ne_false_iff] at hx
  have hx1 : hasSubstr c ('\x7b' :: ('\x7b' :: "date\x7d\x7d".data)) = true := by
    rw [show ('\x7b' :: ('\x7b' :: "date\x7d\x7d".data) : List Char) =
      "\x7b\x7bdate\x7d\x7d".data from rfl]
    exact hx
  have hx2 := hasSubstr_strip_left c _ _ hcn (fun x hxm => (hcb x hxm).1) hx1
  have hx3 := hasSubstr_strip_left c _ _ hcn (fun x hxm => (hcb x hxm).1) hx2
  have hx4 : hasSubstr c ("date\x7d".data ++ ['\x7d']) = true := by
    rw [show ("date\x7d".data ++ ['\x7d'] : List Char) = "date\x7d\x7d".data by decide]
    exact hx3
  have hx5 := hasSubstr_strip_right c _ _ hcn (fun x hxm => (hcb x hxm).2) hx4
  have hx6 : hasSubstr c ("date".data ++ ['\x7d']) = true := by
    rw [show ("date".data ++ ['\x7d'] : List Char) = "date\x7d".data by decide]
    exact hx5
  have hx7 := hasSubstr_strip_right c _ _ hcn (fun x hxm => (hcb x hxm).2) hx6
  have hx8 : hasSubstr c "date:".data = true := by
    rw [show "date:".data = "date".data ++ [':'] by decide]
    exact hasSubstr_mono_right _ _ _ hx7
  rw [hx8] at hd3
  exact Bool.noConfusion hd3

theorem no_sub_name (c : List Char) (hcb : ∀ ch ∈ c, ch ≠ '\x7b' ∧ ch ≠ '\x7d')
    (hn3 : hasSubstr c "stackName".data = false) :
    hasSubstr c "\x7b\x7bstackName\x7d\x7d".data = false := by
  have hcn : c ≠ [] := by
    intro h0
    have htrue : hasSubstr c "stackName".data = true := by
      rw [h0]
      decide
    rw [htrue] at hn3
    exact Bool.noConfusion hn3
  by_contra hx
  rw [← ne_eq, Bool.ne_false_iff] at hx
  have hx1 : hasSubstr c ('\x7b' :: ('\x7b' :: "stackName\x7d\x7d".data)) = true := by
    rw [show ('\x7b' :: ('\x7b' :: "stackName\x7d\x7d".data) : List Char) =
      "\x7b\x7bstackName\x7d\x7d".data from rfl]
    exact hx
  have hx2 := hasSubstr_strip_left c _ _ hcn (fun x hxm => (hcb x hxm).1) hx1
  have hx3 := hasSubstr_strip_left c _ _ hcn (fun x hxm => (hcb x hxm).1) hx2
  have hx4 : hasSubstr c ("stackName\x7d".data ++ ['\x7d']) = true := by
    rw [show ("stackName\x7d".data ++ ['\x7d'] : List Char) = "stackName\x7d\x7d".data by
      decide]
    exact hx3
  have hx5 := hasSubstr_strip_right c _ _ hcn (fun x hxm => (hcb x hxm).2) hx4
  have hx6 : hasSubstr c ("stackName".data ++ ['\x7d']) = true := by
    rw [show ("stackName".data ++ ['\x7d'] : List Char) = "stackName\x7d".data by decide]
    exact hx5
  have hx7 := hasSubstr_strip_right c _ _ hcn (fun x hxm => (hcb x hxm).2) hx6
  rw [hx7] at hn3
  exact Bool.noConfusion hn3

theorem no_sub_about (c : List Char) (hcb : ∀ ch ∈ c, ch ≠ '\x7b' ∧ ch ≠ '\x7d')
    (ha3 : hasSubstr c "about".data = false) :
    hasSubstr c "\x7b\x7babout\x7d\x7d".data = false := by
  have hcn : c ≠ [] := by
    intro h0
    have htrue : hasSubstr c "about".data = true := by
      rw [h0]
      decide
    rw [htrue] at ha3
    exact Bool.noConfusion ha3
  by_contra hx
  rw [← ne_eq, Bool.ne_false_iff] at hx
  have hx1 : hasSubstr c ('\x7b' :: ('\x7b' :: "about\x7d\x7d".data)) = true := by
    rw [show ('\x7b' :: ('\x7b' :: "about\x7d\x7d".data) : List Char) =
      "\x7b\x7babout\x7d\x7d".data from rfl]
    exact hx
  have hx2 := hasSubstr_strip_left c _ _ hcn (fun x hxm => (hcb x hxm).1) hx1
  have hx3 := hasSubstr_strip_left c _ _ hcn (fun x hxm => (hcb x hxm).1) hx2
  have hx4 : hasSubstr c ("about\x7d".data ++ ['\x7d']) = true := by
    rw [show ("about\x7d".data ++ ['\x7d'] : List Char) = "about\x7d\x7d".data by decide]
    exact hx3
  have hx5 := hasSubstr_strip_right c _ _ hcn (fun x hxm => (hcb x hxm).2) hx4
  have hx6 : hasSubstr c ("about".data ++ ['\x7d']) = true := by
    rw [show ("about".data ++ ['\x7d'] : List Char) = "about\x7d".data by decide]
    exact hx5
  have hx7 := hasSubstr_strip_right c _ _ hcn (fun x hxm => (hcb x hxm).2) hx6
  rw [hx7] at ha3
  exact Bool.noConfusion ha3

/-- C3, amended: for every template containing the stack-content token and
every stack whose content is brace-free, is not a fragment of a later
placeholder name (not a substring of `date:`, `stackName` or `about`), and
has an inserted occurrence whose preceding text leaves no unclosed
`\x7b\x7bdate:` opener, the render equals the placeholder pipeline applied
to the token-substituted template — so the fenced-block substitution rule is
not applied, even if the template contains a matching fenced block — and the
rendered output contains the stack content verbatim.  The template may
contain any other placeholders, which are replaced normally. -/
theorem C3_stack_content_verbatim (useAI : Bool) (aiDesc : String)
    (fmt : String → String) (t c n : String) (u v : List Char)
    (h1 : hasSubstr "\x7b\x7bstackContent\x7d\x7d".data t.data = true)
    (hcb : ∀ ch ∈ c.data, ch ≠ '\x7b' ∧ ch ≠ '\x7d')
    (hd3 : hasSubstr c.data "date:".data = false)
    (hn3 : hasSubstr c.data "stackName".data = false)
    (ha3 : hasSubstr c.data "about".data = false)
    (hdec : jsReplaceAll "\x7b\x7bstackContent\x7d\x7d".data c.data t.data =
      u ++ c.data ++ v)
    (hdate : dateSafe (u ++ c.data) = true) :
    processTemplate useAI aiDesc fmt t ⟨n, c⟩ =
      ⟨jsReplaceAll "\x7b\x7babout\x7d\x7d".data
        (if hasSubstr "\x7b\x7babout\x7d\x7d".data
              (jsReplaceAll "\x7b\x7bstackContent\x7d\x7d".data c.data t.data) && useAI
          then aiDesc else "Write description here").data
        (jsReplaceAll "\x7b\x7bstackName\x7d\x7d".data n.data
          (processDateVariables fmt
            ⟨jsReplaceAll "\x7b\x7bstackContent\x7d\x7d".data c.data t.data⟩).data)⟩ ∧
    hasSubstr c.data (processTemplate useAI aiDesc fmt t ⟨n, c⟩).data = true := by
  have hcn : c.data ≠ [] := by
    intro h0
    have htrue : hasSubstr c.data "date:".data = true := by
      rw [h0]
      decide
    rw [htrue] at hd3
    exact Bool.noConfusion hd3
  have hfirst : processTemplate useAI aiDesc fmt t ⟨n, c⟩ =
      ⟨jsReplaceAll "\x7b\x7babout\x7d\x7d".data
        (if hasSubstr "\x7b\x7babout\x7d\x7d".data
              (jsReplaceAll "\x7b\x7bstackContent\x7d\x7d".data c.data t.data) && useAI
          then aiDesc else "Write description here").data
        (jsReplaceAll "\x7b\x7bstackName\x7d\x7d".data n.data
          (processDateVariables fmt
            ⟨jsReplaceAll "\x7b\x7bstackContent\x7d\x7d".data c.data t.data⟩).data)⟩ := by
    unfold processTemplate
    rw [if_pos h1]
  refine ⟨hfirst, ?_⟩
  rw [hfirst]
  show hasSubstr c.data
    (jsReplaceAll "\x7b\x7babout\x7d\x7d".data
      (if hasSubstr "\x7b\x7babout\x7d\x7d".data
            (jsReplaceAll "\x7b\x7bstackContent\x7d\x7d".data c.data t.data) && useAI
        then aiDesc else "Write description here").data
      (jsReplaceAll "\x7b\x7bstackName\x7d\x7d".data n.data
        (processDateVariables fmt
          ⟨jsReplaceAll "\x7b\x7bstackContent\x7d\x7d".data c.data t.data⟩).data)) = true
  obtain ⟨a1, b1, hab1⟩ := dateFmtAux_survive fmt c.data hcb hcn hd3
    ((u ++ c.data ++ v).length + 1) u v (Nat.lt_succ_self _) (dateSafe_spec _ hdate)
  have hpdv : (processDateVariables fmt
      ⟨jsReplaceAll "\x7b\x7bstackContent\x7d\x7d".data c.data t.data⟩).data =
      jsReplaceAll "\x7b\x7bdate\x7d\x7d".data (fmt "YYYY/MM/DD").data
        (dateFmtAux fmt
          ((jsReplaceAll "\x7b\x7bstackContent\x7d\x7d".data c.data t.data).length + 1)
          (jsReplaceAll "\x7b\x7bstackContent\x7d\x7d".data c.data t.data)) := rfl
  have hstep1 : dateFmtAux fmt
      ((jsReplaceAll "\x7b\x7bstackContent\x7d\x7d".data c.data t.data).length + 1)
      (jsReplaceAll "\x7b\x7bstackContent\x7d\x7d".data c.data t.data) =
      a1 ++ c.data ++ b1 := by
    rw [hdec]
    exact hab1
  obtain ⟨a2, b2, hab2⟩ := jsReplaceAllAux_survive "\x7b\x7bdate\x7d\x7d".data
    (fmt "YYYY/MM/DD").data c.data "\x7bdate\x7d\x7d".data rfl
    ⟨"\x7b\x7bdate\x7d".data, by decide⟩ hcb (no_sub_date c.data hcb hd3)
    ((a1 ++ c.data ++ b1).length + 1) a1 [] b1 (Nat.lt_succ_self _)
  have hstep2 : jsReplaceAll "\x7b\x7bdate\x7d\x7d".data (fmt "YYYY/MM/DD").data
      (a1 ++ c.data ++ b1) = a2 ++ c.data ++ b2 := by
    unfold jsReplaceAll
    exact hab2
  obtain ⟨a3, b3, hab3⟩ := jsReplaceAllAux_survive "\x7b\x7bstackName\x7d\x7d".data n.data
    c.data "\x7bstackName\x7d\x7d".data rfl ⟨"\x7b\x7bstackName\x7d".data, by decide⟩ hcb
    (no_sub_name c.data hcb hn3) ((a2 ++ c.data ++ b2).length + 1) a2 [] b2
    (Nat.lt_succ_self _)
  have hstep3 : jsReplaceAll "\x7b\x7bstackName\x7d\x7d".data n.data
      (a2 ++ c.data ++ b2) = a3 ++ c.data ++ b3 := by
    unfold jsReplaceAll
    exact hab3
  obtain ⟨a4, b4, hab4⟩ := jsReplaceAllAux_survive "\x7b\x7babout\x7d\x7d".data
    (if hasSubstr "\x7b\x7babout\x7d\x7d".data
          (jsReplaceAll "\x7b\x7bstackContent\x7d\x7d".data c.data t.data) && useAI
      then aiDesc else "Write description here").data
    c.data "\x7babout\x7d\x7d".data rfl ⟨"\x7b\x7babout\x7d".data, by decide⟩ hcb
    (no_sub_about c.data hcb ha3) ((a3 ++ c.data ++ b3).length + 1) a3 [] b3
    (Nat.lt_succ_self _)
  have hstep4 : jsReplaceAll "\x7b\x7babout\x7d\x7d".data
      (if hasSubstr "\x7b\x7babout\x7d\x7d".data
            (jsReplaceAll "\x7b\x7bstackContent\x7d\x7d".data c.data t.data) && useAI
        then aiDesc else "Write description here").data
      (a3 ++ c.data ++ b3) = a4 ++ c.data ++ b4 := by
    unfold jsReplaceAll
    exact hab4
  rw [hpdv, hstep1, hstep2, hstep3, hstep4]
  exact hasSubstr_of_infix _ _ _

/-- C3, witness: the amended claim at a concrete template that also contains
a stack-name, an about, a bare date and a closed date-format placeholder
around the stack-content token, with a concrete brace-free stack content. -/
theorem C3_stack_content_verbatim_witness :
    processTemplate true "An app." (fun f => f) "# \x7b\x7bstackName\x7d\x7d\n\nAbout: \x7b\x7babout\x7d\x7d\nDate: \x7b\x7bdate\x7d\x7d \x7b\x7bdate:YYYY\x7d\x7d\n\n\x7b\x7bstackContent\x7d\x7d\n"
        ⟨"web", "svc: 1\n  image: nginx"⟩ =
      ⟨jsReplaceAll "\x7b\x7babout\x7d\x7d".data
        (if hasSubstr "\x7b\x7babout\x7d\x7d".data
              (jsReplaceAll "\x7b\x7bstackContent\x7d\x7d".data "svc: 1\n  image: nginx".data "# \x7b\x7bstackName\x7d\x7d\n\nAbout: \x7b\x7babout\x7d\x7d\nDate: \x7b\x7bdate\x7d\x7d \x7b\x7bdate:YYYY\x7d\x7d\n\n\x7b\x7bstackContent\x7d\x7d\n".data) && true
          then "An app." else "Write description here").data
        (jsReplaceAll "\x7b\x7bstackName\x7d\x7d".data "web".data
          (processDateVariables (fun f => f)
            ⟨jsReplaceAll "\x7b\x7bstackContent\x7d\x7d".data "svc: 1\n  image: nginx".data "# \x7b\x7bstackName\x7d\x7d\n\nAbout: \x7b\x7babout\x7d\x7d\nDate: \x7b\x7bdate\x7d\x7d \x7b\x7bdate:YYYY\x7d\x7d\n\n\x7b\x7bstackContent\x7d\x7d\n".data⟩).data)⟩ ∧
    hasSubstr "svc: 1\n  image: nginx".data
      (processTemplate true "An app." (fun f => f) "# \x7b\x7bstackName\x7d\x7d\n\nAbout: \x7b\x7babout\x7d\x7d\nDate: \x7b\x7bdate\x7d\x7d \x7b\x7bdate:YYYY\x7d\x7d\n\n\x7b\x7bstackContent\x7d\x7d\n"
        ⟨"web", "svc: 1\n  image: nginx"⟩).data = true :=
  C3_stack_content_verbatim true "An app." (fun f => f) "# \x7b\x7bstackName\x7d\x7d\n\nAbout: \x7b\x7babout\x7d\x7d\nDate: \x7b\x7bdate\x7d\x7d \x7b\x7bdate:YYYY\x7d\x7d\n\n\x7b\x7bstackContent\x7d\x7d\n"
    "svc: 1\n  image: nginx" "web"
    "# \x7b\x7bstackName\x7d\x7d\n\nAbout: \x7b\x7babout\x7d\x7d\nDate: \x7b\x7bdate\x7d\x7d \x7b\x7bdate:YYYY\x7d\x7d\n\n".data
    "\n".data
    (by decide) (by decide) (by decide) (by decide) (by decide) (by decide) (by decide)

end DockerToObsi
